import Mathlib

/-!
Verification development for a build-time splitter of application bundles:
a dependency-closure scanner, a local-module resolver, an alias mapping,
a vendor-bundle assembler, an import rewriter, and a bundler plugin.
Text processing is embedded at the `List Char` level; the regex passes of
the source are embedded as hand-written leftmost matchers with the same
matching semantics; looping constructs use explicit fuel so that all
definitions reduce inside the kernel.
-/

set_option maxRecDepth 10000

/-! ## Characters and character classes -/

/-- The double-quote character. -/
def dquote : Char := Char.ofNat 34

/-- The single-quote character. -/
def squote : Char := Char.ofNat 39

/-- Left curly bracket. -/
def lbrace : Char := Char.ofNat 123

/-- Right curly bracket. -/
def rbrace : Char := Char.ofNat 125

/-- The dollar character. -/
def dollarCh : Char := Char.ofNat 36

/-- A string-literal quote, as in the character class `['"]`. -/
def isQuote (c : Char) : Bool := c == dquote || c == squote

/-- The JavaScript regex class `\s` (ECMAScript WhiteSpace and LineTerminator). -/
def jsSpace (c : Char) : Bool :=
  let n := c.toNat
  n == 32 || n == 9 || n == 10 || n == 11 || n == 12 || n == 13 ||
  n == 0xA0 || n == 0x1680 || (0x2000 ≤ n && n ≤ 0x200A) ||
  n == 0x2028 || n == 0x2029 || n == 0x202F || n == 0x205F ||
  n == 0x3000 || n == 0xFEFF

/-- The JavaScript regex class `\w`: ASCII letters, digits and underscore. -/
def wordChar (c : Char) : Bool :=
  let n := c.toNat
  (48 ≤ n && n ≤ 57) || (65 ≤ n && n ≤ 90) || (97 ≤ n && n ≤ 122) || n == 95

/-- The class `[\w*{}\s,]` used for the optional binding list of a static import. -/
def bindingChar (c : Char) : Bool :=
  wordChar c || c == '*' || c == lbrace || c == rbrace || jsSpace c || c == ','

/-- The validator allow-list: `@`, ASCII letters and digits, `.`, `_`, `-`, `/`, `:`. -/
def allowedChar (c : Char) : Bool :=
  let n := c.toNat
  n == 64 || (48 ≤ n && n ≤ 57) || (65 ≤ n && n ≤ 90) || (97 ≤ n && n ≤ 122) ||
  n == 46 || n == 95 || n == 45 || n == 47 || n == 58

/-- The pure-punctuation class `[./_@-]`. -/
def punctChar (c : Char) : Bool :=
  let n := c.toNat
  n == 46 || n == 47 || n == 95 || n == 64 || n == 45

/-! ## Basic list-of-characters utilities -/

/-- `isPreOf p l`: `p` is a prefix of `l`. -/
def isPreOf : List Char → List Char → Bool
  | [], _ => true
  | _ :: _, [] => false
  | a :: ps, b :: hs => a == b && isPreOf ps hs

/-- `hasSub hay pat`: `pat` occurs as a contiguous substring of `hay`. -/
def hasSub : List Char → List Char → Bool
  | hay, pat =>
    isPreOf pat hay ||
      match hay with
      | [] => false
      | _ :: t => hasSub t pat

/-- String-level substring test (the source's `String.prototype.includes`). -/
def hasSubS (hay pat : String) : Bool := hasSub hay.data pat.data

/-- `startsWith`, computed character by character. -/
def startsWithCs (p pre : String) : Bool := isPreOf pre.data p.data

/-- Number of positions of `hay` at which `pat` occurs (occurrences may overlap). -/
def countSub : List Char → List Char → Nat
  | hay, pat =>
    (if isPreOf pat hay then 1 else 0) +
      match hay with
      | [] => 0
      | _ :: t => countSub t pat

/-- Trim JavaScript whitespace from both ends (`String.prototype.trim`). -/
def jsTrimCs (l : List Char) : List Char :=
  ((l.dropWhile jsSpace).reverse.dropWhile jsSpace).reverse

/-- `SubOf pat l`: `pat` occurs contiguously inside `l`, as a proposition. -/
def SubOf (pat l : List Char) : Prop := ∃ a b, l = a ++ pat ++ b

/-- `SufOf s l`: `s` is a suffix of `l`. -/
def SufOf (s l : List Char) : Prop := ∃ t, l = t ++ s

/-! ## Comment stripping

The source first replaces `//.*$` (multiline) by nothing, then replaces
`/\*[\s\S]*?\*/` (non-greedy) by nothing.  The first pass removes, on every
line, everything from the first `//` up to (excluding) the line terminator;
the second removes every `/*` together with the nearest following `*/`,
leaving an unterminated `/*` in place. -/

/-- Line-comment stripping; the flag records being inside a line comment. -/
def stripLineAux : Bool → List Char → List Char
  | _, [] => []
  | true, c :: rest =>
    if c == '\n' || c == '\r' then c :: stripLineAux false rest
    else stripLineAux true rest
  | false, '/' :: '/' :: rest => stripLineAux true rest
  | false, c :: rest => c :: stripLineAux false rest

/-- Remove every line comment (`//` to end of line). -/
def stripLineCs (l : List Char) : List Char := stripLineAux false l

/-- Drop up to and including the first `*/`; `none` when there is none. -/
def dropToClose : List Char → Option (List Char)
  | [] => none
  | '*' :: '/' :: rest => some rest
  | _ :: rest => dropToClose rest

/-- Block-comment stripping, fueled. -/
def stripBlockAux : Nat → List Char → List Char
  | 0, l => l
  | fuel + 1, l =>
    match l with
    | '/' :: '*' :: rest =>
      match dropToClose rest with
      | some rest2 => stripBlockAux fuel rest2
      | none => '/' :: '*' :: rest
    | c :: rest => c :: stripBlockAux fuel rest
    | [] => []

/-- Remove every closed block comment (`/* ... */`, non-greedy). -/
def stripBlockCs (l : List Char) : List Char := stripBlockAux (l.length + 1) l

/-- The comment stripper: line comments first, then block comments. -/
def stripCommentsCs (l : List Char) : List Char := stripBlockCs (stripLineCs l)

/-! ## Leftmost matchers for the three extraction patterns -/

/-- Match a literal character sequence at the head, returning the remainder. -/
def litCs : List Char → List Char → Option (List Char)
  | [], l => some l
  | _ :: _, [] => none
  | p :: ps, c :: cs => if p == c then litCs ps cs else none

/-- `\s*`: drop any run of whitespace. -/
def wsStar (l : List Char) : List Char := l.dropWhile jsSpace

/-- `\s+`: require at least one whitespace character, then drop the run. -/
def ws1 : List Char → Option (List Char)
  | [] => none
  | c :: rest => if jsSpace c then some (rest.dropWhile jsSpace) else none

/-- A single quote character (`['"]`). -/
def quoteCh : List Char → Option (List Char)
  | [] => none
  | c :: rest => if isQuote c then some rest else none

/-- `['"]([^'"]+)['"]`: an opening quote, a nonempty capture of non-quote
characters, and a closing quote (either kind). -/
def quoteTail (l : List Char) : Option (List Char × List Char) :=
  match quoteCh l with
  | none => none
  | some l1 =>
    if (l1.takeWhile (fun c => !(isQuote c))).isEmpty then none
    else
      match quoteCh (l1.dropWhile (fun c => !(isQuote c))) with
      | none => none
      | some l3 => some (l1.takeWhile (fun c => !(isQuote c)), l3)

/-- `\s*['"]([^'"]+)['"]`. -/
def quotePart (l : List Char) : Option (List Char × List Char) := quoteTail (wsStar l)

def importCs : List Char := "import".data
def exportCs : List Char := "export".data
def fromCs : List Char := "from".data
def requireCs : List Char := "require".data

/-- Does `g` match the optional group `\s+(?:[\w*{}\s,]+)\s+from` exactly?
Equivalently: `g` ends in `from`, preceded by text of length at least three
whose characters all lie in the binding class, starting and ending with
whitespace (whitespace is contained in the binding class, so the three
quantified pieces decompose this way and no other shapes arise). -/
def groupOkCs (g : List Char) : Bool :=
  let n := g.length
  if n < 7 then false
  else
    let u := g.take (n - 4)
    let t := g.drop (n - 4)
    t == fromCs &&
    (match u.head? with | some c => jsSpace c | none => false) &&
    (match u.getLast? with | some c => jsSpace c | none => false) &&
    u.all bindingChar

/-- Remainders of `l` after a match of the optional binding group, longest
group first — the backtracking order of a greedy optional group. -/
def groupEnds (l : List Char) : List (List Char) :=
  ((List.range (l.length + 1)).reverse).filterMap fun k =>
    if groupOkCs (l.take k) then some (l.drop k) else none

/-- Try a continuation on each candidate in order, first success wins. -/
def firstHit : List (List Char) → (List Char → Option (List Char × List Char)) →
    Option (List Char × List Char)
  | [], _ => none
  | x :: xs, f =>
    match f x with
    | some r => some r
    | none => firstHit xs f

/-- After the keyword of `(?:import|export)`: the optional greedy group
`(?:\s+(?:[\w*{}\s,]+)\s+from)?` followed by `\s*['"]([^'"]+)['"]`. -/
def tryImportAfterKw (l : List Char) : Option (List Char × List Char) :=
  match firstHit (groupEnds l) quotePart with
  | some r => some r
  | none => quotePart l

/-- The pattern `(?:import|export)(?:\s+(?:[\w*{}\s,]+)\s+from)?\s*['"]([^'"]+)['"]`
at the head of `l`, returning the capture and the remainder after the match. -/
def tryImportMatch (l : List Char) : Option (List Char × List Char) :=
  match litCs importCs l with
  | some l1 => tryImportAfterKw l1
  | none =>
    match litCs exportCs l with
    | some l1 => tryImportAfterKw l1
    | none => none

/-- `kw\s*\(\s*['"]([^'"]+)['"]\s*\)` at the head of `l` — the shape of the
`require(...)` and dynamic `import(...)` patterns. -/
def tryCallMatch (kw : List Char) (l : List Char) : Option (List Char × List Char) :=
  match litCs kw l with
  | none => none
  | some l1 =>
    match litCs ['('] (wsStar l1) with
    | none => none
    | some l2 =>
      match quoteTail (wsStar l2) with
      | none => none
      | some (cap, l3) =>
        match litCs [')'] (wsStar l3) with
        | none => none
        | some l4 => some (cap, l4)

/-- Global scanning of a pattern over a text: at each position try the
matcher; on a match record the capture and resume after the match, otherwise
advance one character — the `exec` loop of a global regex. -/
def scanWith (m : List Char → Option (List Char × List Char)) :
    Nat → List Char → List (List Char)
  | 0, _ => []
  | fuel + 1, l =>
    match m l with
    | some (cap, rest) => cap :: scanWith m fuel rest
    | none =>
      match l with
      | [] => []
      | _ :: t => scanWith m fuel t

/-- All matches of the three patterns, concatenated in the source's order:
static import/export first, then `require(...)`, then dynamic `import(...)`. -/
def extractMatches (l : List Char) : List (List Char) :=
  scanWith tryImportMatch (l.length + 1) l ++
  scanWith (tryCallMatch requireCs) (l.length + 1) l ++
  scanWith (tryCallMatch importCs) (l.length + 1) l

/-- Comment-strip a file's content and run the three extraction patterns. -/
def importsOfContent (c : String) : List String :=
  (extractMatches (stripCommentsCs c.data)).map fun cs => String.mk cs

/-! ## Specifier validation and externality -/

/-- `isValidImportPath` from the source: rejects empty or whitespace-only
strings, line breaks, interpolation markers, untrimmed strings, characters
outside the allow-list, and pure punctuation. -/
def isValidImportPath (p : String) : Bool :=
  let cs := p.data
  !cs.isEmpty && !(jsTrimCs cs).isEmpty &&
  !cs.contains '\n' && !cs.contains '\r' &&
  !hasSub cs [dollarCh, lbrace] && !cs.contains rbrace &&
  cs == jsTrimCs cs &&
  cs.all allowedChar &&
  !cs.all punctChar

/-- The default externality classifier: mentions `node_modules`, or does not
start with `.`, `/` or `~`. -/
def defaultIsExternal (p : String) : Bool :=
  hasSubS p "node_modules" ||
  (!startsWithCs p "." && !startsWithCs p "/" && !startsWithCs p "~")

/-! ## Path arithmetic (POSIX-style, for absolute paths) -/

/-- Split a character list at every `/`. -/
def splitSl : List Char → List (List Char)
  | [] => [[]]
  | c :: t =>
    if c == '/' then [] :: splitSl t
    else
      match splitSl t with
      | h :: t2 => (c :: h) :: t2
      | [] => [[c]]

/-- Split a path into its nonempty segments. -/
def splitSegs (p : String) : List String :=
  ((splitSl p.data).map (fun cs => String.mk cs)).filter (fun s => s ≠ "")

/-- Normalize segments, resolving `.` and `..`. -/
def normSegs (l : List String) : List String :=
  l.foldl (fun acc s =>
    if s = "." then acc
    else if s = ".." then acc.dropLast
    else acc ++ [s]) []

/-- Rebuild an absolute path from segments. -/
def joinSegs (l : List String) : String := "/" ++ String.intercalate "/" l

/-- `resolve(cwd, p)` for an absolute `cwd`. -/
def resolvePath (cwd p : String) : String :=
  if startsWithCs p "/" then joinSegs (normSegs (splitSegs p))
  else joinSegs (normSegs (splitSegs cwd ++ splitSegs p))

/-- `dirname` of an absolute path. -/
def dirnameP (p : String) : String := joinSegs ((splitSegs p).dropLast)

/-- `join` of an absolute path and a relative one. -/
def joinP (a b : String) : String := joinSegs (normSegs (splitSegs a ++ splitSegs b))

/-! ## Filesystem model -/

/-- A snapshot of the filesystem: regular files with their text content, and
directories.  Later entries shadowing is avoided by `fsWrite` replacing. -/
structure FSState where
  files : List (String × String)
  dirs : List String
deriving Repr

/-- Content of a regular file, when present. -/
def lookupFile (fs : FSState) (p : String) : Option String :=
  match fs.files.find? (fun e => e.1 = p) with
  | some e => some e.2
  | none => none

/-- `existsSync`: true for regular files and directories. -/
def existsF (fs : FSState) (p : String) : Bool :=
  (fs.files.any (fun e => e.1 = p)) || fs.dirs.contains p

/-- `statSync(p).isDirectory()` (only queried behind `existsSync`). -/
def isDirF (fs : FSState) (p : String) : Bool := fs.dirs.contains p

/-- `writeFileSync`: create or replace a regular file. -/
def fsWrite (fs : FSState) (p c : String) : FSState :=
  { fs with files := (p, c) :: fs.files.filter (fun e => e.1 ≠ p) }

/-- `unlink`: remove a regular file. -/
def fsUnlink (fs : FSState) (p : String) : FSState :=
  { fs with files := fs.files.filter (fun e => e.1 ≠ p) }

/-! ## Local module resolution -/

/-- The fixed ordered extension list of the source, ending with the
empty-string probe. -/
def extProbes : List String := [".ts", ".tsx", ".js", ".jsx", ".mjs", ".cjs", ""]

/-- The fixed ordered index-file list of the source. -/
def idxProbes : List String := ["index.ts", "index.tsx", "index.js", "index.jsx", "index.mjs"]

/-- `resolveLocalImport`: `none` for non-local specifiers; otherwise resolve
against the containing file's directory, probe the extension list in order,
and only if all probes fail, probe index files inside a directory. -/
def resolveLocalImport (fs : FSState) (importPath fromFile : String) : Option String :=
  if !(startsWithCs importPath "." || startsWithCs importPath "/") then none
  else
    let dir := dirnameP fromFile
    let resolved := resolvePath dir importPath
    match extProbes.find? (fun e => existsF fs (resolved ++ e)) with
    | some e => some (resolved ++ e)
    | none =>
      if existsF fs resolved && isDirF fs resolved then
        match idxProbes.find? (fun ix => existsF fs (joinP resolved ix)) with
        | some ix => some (joinP resolved ix)
        | none => none
      else none

/-! ## The closure scanner -/

/-- Scanner state: FIFO work queue, visited set, accumulated external set
(in insertion order), and the trace of files actually scanned. -/
structure ScanSt where
  queue : List String
  visited : List String
  exts : List String
  scanned : List String
deriving Repr

/-- `Set.add`: append if absent, keeping insertion order. -/
def insertEnd (l : List String) (s : String) : List String :=
  if l.contains s then l else l ++ [s]

/-- Process the extracted specifier list of one file: validate, classify,
accumulate externals, resolve and enqueue unvisited locals. -/
def processDeps (fs : FSState) (isExt : String → Bool) (file : String)
    (deps : List String) (st : ScanSt) : ScanSt :=
  deps.foldl (fun st dep =>
    if !isValidImportPath dep then st
    else if isExt dep then { st with exts := insertEnd st.exts dep }
    else
      match resolveLocalImport fs dep file with
      | some r => if st.visited.contains r then st else { st with queue := st.queue ++ [r] }
      | none => st) st

/-- One loop iteration on a dequeued file (`st.queue` already holds the rest):
skip if visited; mark visited and record the scan; skip missing paths; a
directory read raises and is skipped; otherwise extract and process. -/
def scanStep (fs : FSState) (isExt : String → Bool) (file : String) (st : ScanSt) : ScanSt :=
  if st.visited.contains file then st
  else
    let st := { st with visited := file :: st.visited, scanned := st.scanned ++ [file] }
    if !existsF fs file then st
    else
      match lookupFile fs file with
      | none => st
      | some c => processDeps fs isExt file (importsOfContent c) st

/-- The scanner loop, fueled; `none` only on fuel exhaustion. -/
def scanLoop (fs : FSState) (isExt : String → Bool) : Nat → ScanSt → Option ScanSt
  | 0, st =>
    match st.queue with
    | [] => some st
    | _ :: _ => none
  | fuel + 1, st =>
    match st.queue with
    | [] => some st
    | f :: rest => scanLoop fs isExt fuel (scanStep fs isExt f { st with queue := rest })

/-- Per-file budget: number of extracted specifiers of a regular file. -/
def fileBudget (fs : FSState) (p : String) : Nat :=
  match lookupFile fs p with
  | some c => (importsOfContent c).length
  | none => 0

/-- The deduplicated universe of paths that exist in the filesystem. -/
def univPaths (fs : FSState) : List String := (fs.files.map (fun e => e.1) ++ fs.dirs).dedup

/-- Potential of a visited set: for every existing unvisited path, one scan
step plus its enqueue budget. -/
def potSum (fs : FSState) (v : List String) : Nat :=
  (((univPaths fs).filter (fun p => !v.contains p)).map (fun p => 1 + fileBudget fs p)).sum

/-- Termination potential: queue length plus the visited-set potential. -/
def scanPot (fs : FSState) (st : ScanSt) : Nat := st.queue.length + potSum fs st.visited

/-- Initial scanner state from the entrypoints. -/
def initScanSt (cwd : String) (entrypoints : List String) : ScanSt :=
  { queue := entrypoints.map (resolvePath cwd), visited := [], exts := [], scanned := [] }

/-- `collectExternalDependencies`, run with provably sufficient fuel. -/
def collectExternalDependencies (fs : FSState) (isExt : String → Bool)
    (cwd : String) (entrypoints : List String) : Option ScanSt :=
  scanLoop fs isExt (scanPot fs (initScanSt cwd entrypoints) + 1) (initScanSt cwd entrypoints)

/-- The external set of a build, as a list in insertion order. -/
def externalArrayOf (fs : FSState) (isExt : String → Bool)
    (cwd : String) (entrypoints : List String) : List String :=
  match collectExternalDependencies fs isExt cwd entrypoints with
  | some st => st.exts
  | none => []

/-! ## Alias mapping -/

/-- Decimal digits of `n`, most significant first, fueled (structural). -/
def decDigitsAux : Nat → Nat → List Char
  | 0, _ => []
  | fuel + 1, n =>
    if n < 10 then [Nat.digitChar n]
    else decDigitsAux fuel (n / 10) ++ [Nat.digitChar (n % 10)]

/-- The decimal representation of a natural number, as in `_dep${i}`. -/
def decRepr (n : Nat) : String := String.mk (decDigitsAux (n + 1) n)

/-- Read a decimal digit string back into a number (used to invert
`decRepr`). -/
def parseDec (l : List Char) : Nat := l.foldl (fun a c => a * 10 + (c.toNat - 48)) 0

/-- The alias for index `i`: `_dep0`, `_dep1`, ... -/
def aliasAt (i : Nat) : String := "_dep" ++ decRepr i

/-- Pair each element with its index, preserving order. -/
def idxFrom (n : Nat) : List α → List (Nat × α)
  | [] => []
  | a :: t => (n, a) :: idxFrom (n + 1) t

/-- `withIdx l` enumerates `l` with indices from zero. -/
def withIdx (l : List α) : List (Nat × α) := idxFrom 0 l

/-- `depMapping`: association of each external specifier with its alias, in
input order of the external array. -/
def depMapping (ext : List String) : List (String × String) :=
  (withIdx ext).map (fun e => (e.2, aliasAt e.1))

/-- Assoc-list lookup, first binding wins (`depMapping[dep]`). -/
def lookupA (m : List (String × String)) (k : String) : Option String :=
  match m.find? (fun e => e.1 = k) with
  | some e => some e.2
  | none => none

/-- The alias the rewriter uses for `dep` (`depMapping[dep]`). -/
def aliasFor (ext : List String) (dep : String) : Option String :=
  lookupA (depMapping ext) dep

/-- The synthetic vendor entry module: one namespace re-export per external
specifier under its alias, one per line. -/
def vendorEntryContent (ext : List String) : String :=
  String.intercalate "\n"
    ((withIdx ext).map (fun e =>
      "export * as " ++ aliasAt e.1 ++ " from \"" ++ e.2 ++ "\";"))

/-- The single consolidated vendor import prepended to every rewritten
artifact: `import { _dep0, ..., _depN } from "<vendor path>";` plus newline. -/
def vendorImportStmt (ext : List String) (vendorBundlePath : String) : String :=
  "import \x7b " ++
    String.intercalate ", " ((withIdx ext).map (fun e => aliasAt e.1)) ++
    " \x7d from \"" ++ vendorBundlePath ++ "\";\n"

/-! ## The import rewriter

Four textual substitution passes per external specifier, each embedding one
regex of the source.  All quantifier choices in these patterns are
deterministic: `\w`, `\s` and the literal pieces pairwise exclude each other,
so greedy runs never backtrack productively. -/

/-- `(\w+)`: a nonempty maximal word-character run. -/
def takeWord (l : List Char) : Option (List Char × List Char) :=
  let w := l.takeWhile wordChar
  if w.isEmpty then none else some (w, l.dropWhile wordChar)

/-- `import\s+(\w+)\s+from\s*["']dep["']` — a default import of `dep`;
returns the replacement `const $1 = alias.default || alias` and the rest. -/
def mDefault (dep ali : List Char) (l : List Char) : Option (List Char × List Char) := do
  let l1 ← litCs importCs l
  let l2 ← ws1 l1
  let (name, l3) ← takeWord l2
  let l4 ← ws1 l3
  let l5 ← litCs fromCs l4
  let l6 ← quoteCh (wsStar l5)
  let l7 ← litCs dep l6
  let l8 ← quoteCh l7
  pure ("const ".data ++ name ++ " = ".data ++ ali ++ ".default || ".data ++ ali, l8)

/-- `import\s*\*\s*as\s+(\w+)\s+from\s*["']dep["']` — a namespace import;
returns the replacement `const $1 = alias` and the rest. -/
def mNamespace (dep ali : List Char) (l : List Char) : Option (List Char × List Char) := do
  let l1 ← litCs importCs l
  let l2 ← litCs ['*'] (wsStar l1)
  let l3 ← litCs "as".data (wsStar l2)
  let l4 ← ws1 l3
  let (name, l5) ← takeWord l4
  let l6 ← ws1 l5
  let l7 ← litCs fromCs l6
  let l8 ← quoteCh (wsStar l7)
  let l9 ← litCs dep l8
  let l10 ← quoteCh l9
  pure ("const ".data ++ name ++ " = ".data ++ ali, l10)

/-- Split on every comma (JavaScript `String.prototype.split(',')`). -/
def splitComma (l : List Char) : List (List Char) :=
  match l.foldr (fun c acc =>
    match acc with
    | cur :: done => if c == ',' then [] :: (cur :: done) else (c :: cur) :: done
    | [] => [[c]]) [[]] with
  | parts => parts

/-- First match of `(\w+)\s+as\s+(\w+)` at the head of `l`. -/
def tryAs (l : List Char) : Option (List Char × List Char) := do
  let (w1, r1) ← takeWord l
  let r2 ← ws1 r1
  let r3 ← litCs "as".data r2
  let r4 ← ws1 r3
  let (w2, _) ← takeWord r4
  pure (w1, w2)

/-- Leftmost match of `(\w+)\s+as\s+(\w+)` anywhere in `l`. -/
def findAs : List Char → Option (List Char × List Char)
  | [] => none
  | l@(_ :: t) =>
    match tryAs l with
    | some r => some r
    | none => findAs t

/-- One named-import list entry: rewrite `x as y` to `x: y`, keep the rest. -/
def entryRewrite (part : List Char) : List Char :=
  match findAs part with
  | some (a, b) => a ++ ": ".data ++ b
  | none => part

/-- The destructuring body built from the capture of a named import list:
split on commas, trim, drop empties, rewrite `as`, join with `, `. -/
def destructureOf (cap : List Char) : List Char :=
  ((((splitComma cap).map jsTrimCs).filter (fun s => !s.isEmpty)).map entryRewrite).intersperse ", ".data |>.flatten

/-- `import\s*\{([^}]+)\}\s*from\s*["']dep["']` — a named import list;
returns the replacement `const { ... } = alias` and the rest. -/
def mNamed (dep ali : List Char) (l : List Char) : Option (List Char × List Char) := do
  let l1 ← litCs importCs l
  let l2 ← litCs [lbrace] (wsStar l1)
  let cap := l2.takeWhile (fun c => c != rbrace)
  let l3 := l2.dropWhile (fun c => c != rbrace)
  if cap.isEmpty then none else do
  let l4 ← litCs [rbrace] l3
  let l5 ← litCs fromCs (wsStar l4)
  let l6 ← quoteCh (wsStar l5)
  let l7 ← litCs dep l6
  let l8 ← quoteCh l7
  pure ("const ".data ++ [lbrace] ++ " ".data ++ destructureOf cap ++
        " ".data ++ [rbrace] ++ " = ".data ++ ali, l8)

/-- `require\s*\(\s*["']dep["']\s*\)` — a require call; replaced by a bare
reference to the alias. -/
def mRequire (dep ali : List Char) (l : List Char) : Option (List Char × List Char) := do
  let l1 ← litCs requireCs l
  let l2 ← litCs ['('] (wsStar l1)
  let l3 ← quoteCh (wsStar l2)
  let l4 ← litCs dep l3
  let l5 ← quoteCh l4
  let l6 ← litCs [')'] (wsStar l5)
  pure (ali, l6)

/-- Global replace: scan left to right, emit replacements at matches and
resume after the matched portion (`String.prototype.replace` with `g`). -/
def replaceScan (m : List Char → Option (List Char × List Char)) :
    Nat → List Char → List Char
  | 0, l => l
  | fuel + 1, l =>
    match m l with
    | some (rep, rest) => rep ++ replaceScan m fuel rest
    | none =>
      match l with
      | [] => []
      | c :: t => c :: replaceScan m fuel t

/-- Apply one replacement pass over a whole text. -/
def replaceAllCs (m : List Char → Option (List Char × List Char))
    (l : List Char) : List Char :=
  replaceScan m (l.length + 1) l

/-- The four substitution passes for one external specifier, in source
order: default import, namespace import, named import list, require call. -/
def rewriteDep (dep ali : String) (code : List Char) : List Char :=
  replaceAllCs (mRequire dep.data ali.data)
    (replaceAllCs (mNamed dep.data ali.data)
      (replaceAllCs (mNamespace dep.data ali.data)
        (replaceAllCs (mDefault dep.data ali.data) code)))

/-- Rewrite one compiled artifact: substitute every external specifier's
surface import forms (in external-array order), then prepend the consolidated
vendor import. -/
def rewriteCode (ext : List String) (nodeModulesBundleName : String) (code : String) : String :=
  let body := ext.foldl (fun c dep =>
    rewriteDep dep ((aliasFor ext dep).getD "") c) code.data
  vendorImportStmt ext ("./" ++ nodeModulesBundleName) ++ String.mk body

/-! ## Suffix tests -/

/-- `pat` is a suffix of `l` (character-level `endsWith`). -/
def isSufCs (pat l : List Char) : Bool := isPreOf pat.reverse l.reverse

/-- The regex `\.(js|mjs)$`: the path ends in `.js` or `.mjs`.  Used both as
the plugin's default load filter and as the artifact test of the build. -/
def jsLike (p : String) : Bool := isSufCs ".js".data p.data || isSufCs ".mjs".data p.data

/-! ## The two-phase build pipeline

`Bun.build` and the obfuscation engine are external collaborators: the
first-party build result, the vendor build result (a value or a raised
error) and the transformation function are parameters.  The filesystem is
threaded explicitly; `console.warn` output is accumulated in a list. -/

/-- A build artifact: an output path and the artifact object's text. -/
structure ArtifactM where
  path : String
  text : String
deriving Repr

/-- The shape of a `Bun.build` result. -/
structure BuildOutputM where
  success : Bool
  logs : List String
  outputs : List ArtifactM
deriving Repr

/-- The result of `obfuscatedBuild`. -/
structure ObfResultM where
  success : Bool
  logs : List String
  outputs : List ArtifactM
  vendorOutput : Option BuildOutputM
deriving Repr

/-- An `obfuscatedBuild` run: result, final filesystem, warnings logged. -/
structure BuildRun where
  res : ObfResultM
  fs : FSState
  warnings : List String
deriving Repr

/-- Phase 2, one artifact: `.js`/`.mjs` artifacts with nonempty trimmed text
are obfuscated and written back to their path; empty ones and non-JS
artifacts are passed through with no write; the artifact object itself is
pushed unchanged in every branch. -/
def phase2Step (obf : String → String) (acc : List ArtifactM × FSState)
    (a : ArtifactM) : List ArtifactM × FSState :=
  if jsLike a.path then
    if (jsTrimCs a.text.data).isEmpty then (acc.1 ++ [a], acc.2)
    else (acc.1 ++ [a], fsWrite acc.2 a.path (obf a.text))
  else (acc.1 ++ [a], acc.2)

/-- Phase 2 over all first-party outputs. -/
def phase2 (obf : String → String) (outs : List ArtifactM) (fs : FSState) :
    List ArtifactM × FSState :=
  outs.foldl (phase2Step obf) ([], fs)

/-- The rewrite loop of phase 3: for every `.js`/`.mjs` artifact, read the
file, rewrite its imports against the vendor bundle, write it back. -/
def rewriteOutputs (ext : List String) (bundleName : String)
    (outs : List ArtifactM) (fs : FSState) : FSState :=
  outs.foldl (fun fs a =>
    if jsLike a.path then
      fsWrite fs a.path (rewriteCode ext bundleName ((lookupFile fs a.path).getD ""))
    else fs) fs

/-- The vendor-bundle warning message of the source. -/
def vendorWarn : String :=
  "[bun-plugin-javascript-obfuscator] Warning: Failed to bundle node_modules"

/-- Configuration of `obfuscatedBuild` (collaborator options omitted). -/
structure BuildCfg where
  entrypoints : List String
  outdir : Option String
  cwd : String := "/"
  bundleNodeModules : Bool := true
  nodeModulesBundleName : String := "vendor.js"

/-- Ensure the output directory exists (`mkdirSync` when absent). -/
def mkOutdir (fs : FSState) (od : String) : FSState :=
  if existsF fs od then fs else { fs with dirs := od :: fs.dirs }

/-- `obfuscatedBuild`: configuration validation, dependency-closure scan,
first-party build (collaborator result `userBuild`), obfuscation phase,
vendor bundling with a transient entry module (collaborator result
`vendorBuild`, `.error` modelling a raised exception), and import
rewriting.  `ts` is the timestamp used in the synthetic entry file name. -/
def obfuscatedBuildM (cfg : BuildCfg) (isExt : String → Bool) (fs0 : FSState)
    (userBuild : BuildOutputM) (vendorBuild : Except String BuildOutputM)
    (obf : String → String) (ts : Nat) : Except String BuildRun :=
  match cfg.entrypoints with
  | [] => .error "At least one entrypoint is required"
  | e0 :: _ =>
    match cfg.outdir with
    | none => .error "outdir is required for obfuscatedBuild"
    | some od =>
      let fs1 := mkOutdir fs0 od
      let externalArray := externalArrayOf fs1 isExt cfg.cwd cfg.entrypoints
      if !userBuild.success then
        .ok ⟨⟨false, userBuild.logs, [], none⟩, fs1, []⟩
      else
        let p2 := phase2 obf userBuild.outputs fs1
        if cfg.bundleNodeModules && !externalArray.isEmpty then
          let entryDir := dirnameP (resolvePath cfg.cwd e0)
          let entryPath := joinP entryDir ("__vendor_entry_" ++ decRepr ts ++ ".js")
          let fs3 := fsWrite p2.2 entryPath (vendorEntryContent externalArray)
          match vendorBuild with
          | .error e =>
            .ok ⟨⟨true, userBuild.logs, p2.1, none⟩, fsUnlink fs3 entryPath, [vendorWarn, e]⟩
          | .ok vo =>
            let fs4 := fsUnlink fs3 entryPath
            if !vo.success then
              .ok ⟨⟨true, userBuild.logs, p2.1, some vo⟩, fs4, vendorWarn :: vo.logs⟩
            else
              .ok ⟨⟨true, userBuild.logs, p2.1, some vo⟩,
                   rewriteOutputs externalArray cfg.nodeModulesBundleName p2.1 fs4, []⟩
        else
          .ok ⟨⟨true, userBuild.logs, p2.1, none⟩, p2.2, []⟩

/-- The synthetic vendor entry path of a run, as built by the source:
in the directory of the first (resolved) entrypoint, with a timestamped name. -/
def vendorEntryPathOf (cfg : BuildCfg) (e0 : String) (ts : Nat) : String :=
  joinP (dirnameP (resolvePath cfg.cwd e0)) ("__vendor_entry_" ++ decRepr ts ++ ".js")

/-! ## The bundler plugin -/

/-- The plugin's `onLoad` hook body: excluded paths and whitespace-only
sources yield no result (`undefined`); otherwise the obfuscated contents. -/
def onLoadHook (exclude : Option (String → Bool)) (obf : String → String)
    (path source : String) : Option String :=
  if (match exclude with | some ex => ex path | none => false) then none
  else if (jsTrimCs source.data).isEmpty then none
  else some (obf source)

/-- The registration filter: the `include` option, defaulting to the regex
`\.(js|mjs)$`. -/
def pluginFilter (incl : Option (String → Bool)) : String → Bool :=
  match incl with
  | some f => f
  | none => jsLike

/-- The bundler runs the hook only on filter-matching paths: the observable
effect of the plugin on one loaded file. -/
def pluginProcess (incl exclude : Option (String → Bool)) (obf : String → String)
    (path source : String) : Option String :=
  if pluginFilter incl path then onLoadHook exclude obf path source else none

/-! ## Position-annotated scanning and first-occurrence indices -/

/-- `scanWith`, additionally recording the end position of each match in the
original text (`pos` is the number of characters already consumed). -/
def scanPos (m : List Char → Option (List Char × List Char)) :
    Nat → Nat → List Char → List (Nat × List Char)
  | 0, _, _ => []
  | fuel + 1, pos, l =>
    match m l with
    | some (cap, rest) =>
      (pos + (l.length - rest.length), cap) ::
        scanPos m fuel (pos + (l.length - rest.length)) rest
    | none =>
      match l with
      | [] => []
      | _ :: t => scanPos m fuel (pos + 1) t

/-- Matches of the static import/export pattern with their end positions. -/
def importPosOf (l : List Char) : List (Nat × List Char) :=
  scanPos tryImportMatch (l.length + 1) 0 l

/-- Matches of the `require(...)` pattern with their end positions. -/
def requirePosOf (l : List Char) : List (Nat × List Char) :=
  scanPos (tryCallMatch requireCs) (l.length + 1) 0 l

/-- Matches of the dynamic `import(...)` pattern with their end positions. -/
def dynImportPosOf (l : List Char) : List (Nat × List Char) :=
  scanPos (tryCallMatch importCs) (l.length + 1) 0 l

/-- Index of the first occurrence of `pat` in `hay`, if any. -/
def firstSubIdx : List Char → List Char → Option Nat
  | hay, pat =>
    if isPreOf pat hay then some 0
    else
      match hay with
      | [] => none
      | _ :: t => (firstSubIdx t pat).map (fun n => n + 1)

/-! ## Concrete example inputs -/

/-- A cyclic import graph: `/a.ts` and `/b.ts` import each other, and
`/a.ts` also imports the external package `lodash`. -/
def fsCyc : FSState :=
  { files := [("/a.ts", "import \"./b.ts\";\nimport \"lodash\";"),
              ("/b.ts", "import \"./a.ts\";")],
    dirs := ["/"] }

/-- The external array of the round-trip rewrite example. -/
def c2Ext : List String := ["pkg", "pkg2", "pkg3", "pkg4"]

/-- A first-party artifact exercising all four import surface forms. -/
def c2Artifact : String :=
  "import x from \"pkg\";\nimport * as y from \"pkg2\";\nimport \x7b a, b as c \x7d from \"pkg3\";\nconst d = require(\"pkg4\");\n"

/-- The rewritten artifact. -/
def c2Rewritten : String := rewriteCode c2Ext "vendor.js" c2Artifact

/-- The body of the block comment of the comment-stripper counterexample. -/
def c3Mid : String := " comment\nimport \"lodash\"\n// end "

/-- A source file that consists of one single block comment whose body
contains an import of `lodash`, and whose closing line carries a `//`. -/
def c3Content : String := "/*" ++ c3Mid ++ "*/"

/-- A one-file tree whose only file is that block comment. -/
def c3Fs : FSState := { files := [("/a.js", c3Content)], dirs := ["/"] }

/-- A one-file tree in which `lodash` is referenced only on a `//` line. -/
def c3FsW : FSState :=
  { files := [("/w.js", "// import \"lodash\"\nimport \"left-pad\";")], dirs := ["/"] }

/-- A tree where `./lib` resolves to an existing directory containing
`index.ts`: the extension-probe loop's empty-string probe hits first. -/
def c4Fs : FSState :=
  { files := [("/src/a.ts", "import \"./lib\";"), ("/src/lib/index.ts", "import \"lodash\";")],
    dirs := ["/", "/src", "/src/lib"] }

/-- A text in which a `require` target occurs before a static-import target. -/
def c8Content : String := "require(\"aa\");\nimport x from \"bb\";"

/-! ## Basic lemmas on the utilities -/

theorem isPreOf_iff : ∀ {p l : List Char}, isPreOf p l = true ↔ ∃ r, l = p ++ r := by
  intro p
  induction p with
  | nil => intro l; simp [isPreOf]
  | cons a ps ih =>
    intro l
    cases l with
    | nil => simp [isPreOf]
    | cons b hs =>
      simp only [isPreOf, Bool.and_eq_true, beq_iff_eq, ih, List.cons_append, List.cons.injEq]
      constructor
      · rintro ⟨rfl, r, rfl⟩; exact ⟨r, rfl, rfl⟩
      · rintro ⟨r, rfl, rfl⟩; exact ⟨rfl, r, rfl⟩

theorem hasSub_iff : ∀ (hay pat : List Char), hasSub hay pat = true ↔ SubOf pat hay := by
  intro hay
  induction hay with
  | nil =>
    intro pat
    rw [hasSub]
    constructor
    · intro h
      simp only [Bool.or_eq_true] at h
      rcases h with h | h
      · rcases isPreOf_iff.mp h with ⟨r, hr⟩
        exact ⟨[], r, by simpa using hr⟩
      · cases h
    · rintro ⟨a, b, hab⟩
      have hab2 : a ++ (pat ++ b) = [] := by simpa using hab.symm
      simp only [List.append_eq_nil] at hab2
      have hp : pat = [] := hab2.2.1
      subst hp
      simp [isPreOf]
  | cons c t ih =>
    intro pat
    rw [hasSub]
    simp only [Bool.or_eq_true]
    constructor
    · intro h
      rcases h with h | h
      · rcases isPreOf_iff.mp h with ⟨r, hr⟩
        exact ⟨[], r, by simpa using hr⟩
      · rcases (ih pat).mp h with ⟨a, b, hab⟩
        exact ⟨c :: a, b, by simp [hab]⟩
    · rintro ⟨a, b, hab⟩
      cases a with
      | nil =>
        left
        exact isPreOf_iff.mpr ⟨b, by simpa using hab⟩
      | cons a0 a1 =>
        right
        refine (ih pat).mpr ⟨a1, b, ?_⟩
        simpa using congrArg List.tail hab

theorem SufOf_trans {a b c : List Char} (h1 : SufOf a b) (h2 : SufOf b c) : SufOf a c := by
  rcases h1 with ⟨t1, rfl⟩
  rcases h2 with ⟨t2, rfl⟩
  exact ⟨t2 ++ t1, by simp⟩

theorem SufOf_refl (l : List Char) : SufOf l l := ⟨[], rfl⟩

theorem SufOf_length {a b : List Char} (h : SufOf a b) : a.length ≤ b.length := by
  rcases h with ⟨t, rfl⟩
  simp

theorem SubOf_of_SufOf {p a b : List Char} (hp : SubOf p a) (h : SufOf a b) : SubOf p b := by
  rcases hp with ⟨x, y, rfl⟩
  rcases h with ⟨t, rfl⟩
  exact ⟨t ++ x, y, by simp⟩

theorem SubOf_cons {p : List Char} {c : Char} {t : List Char} (h : SubOf p t) :
    SubOf p (c :: t) := by
  rcases h with ⟨x, y, rfl⟩
  exact ⟨c :: x, y, rfl⟩

theorem dropWhile_SufOf (q : Char → Bool) (l : List Char) : SufOf (l.dropWhile q) l :=
  ⟨l.takeWhile q, (List.takeWhile_append_dropWhile q l).symm⟩

theorem litCs_eq : ∀ {p l r : List Char}, litCs p l = some r → l = p ++ r := by
  intro p
  induction p with
  | nil => intro l r h; simpa [litCs] using h
  | cons a ps ih =>
    intro l r h
    cases l with
    | nil => simp [litCs] at h
    | cons b hs =>
      by_cases hab : a == b
      · simp only [litCs, hab, if_pos] at h
        have := ih h
        simp [List.cons_append, ← this, (beq_iff_eq.mp hab)]
      · simp [litCs, hab] at h

theorem litCs_SufOf {p l r : List Char} (h : litCs p l = some r) : SufOf r l :=
  ⟨p, litCs_eq h⟩

theorem ws1_SufOf : ∀ {l r : List Char}, ws1 l = some r → SufOf r l ∧ r.length < l.length := by
  intro l r h
  cases l with
  | nil => simp [ws1] at h
  | cons c t =>
    by_cases hc : jsSpace c
    · simp only [ws1, hc, if_pos] at h
      have hr : r = t.dropWhile jsSpace := (Option.some.inj h).symm
      subst hr
      refine ⟨SufOf_trans (dropWhile_SufOf _ _) ⟨[c], rfl⟩, ?_⟩
      have := SufOf_length (dropWhile_SufOf jsSpace t)
      simp only [List.length_cons]
      omega
    · simp [ws1, hc] at h

theorem quoteCh_eq : ∀ {l r : List Char}, quoteCh l = some r → ∃ c, isQuote c = true ∧ l = c :: r := by
  intro l r h
  cases l with
  | nil => simp [quoteCh] at h
  | cons c t =>
    by_cases hc : isQuote c
    · simp only [quoteCh, hc, if_pos] at h
      exact ⟨c, hc, by rw [Option.some.inj h]⟩
    · simp [quoteCh, hc] at h

/-! ## Matcher structure lemmas -/

theorem quoteTail_spec {l cap r : List Char} (h : quoteTail l = some (cap, r)) :
    SubOf cap l ∧ SufOf r l ∧ r.length + 1 < l.length := by
  unfold quoteTail at h
  cases hq : quoteCh l with
  | none => simp [hq] at h
  | some l1 =>
    simp only [hq] at h
    by_cases hcap : (l1.takeWhile (fun c => !(isQuote c))).isEmpty
    · rw [if_pos hcap] at h; cases h
    · rw [if_neg hcap] at h
      cases hq2 : quoteCh (l1.dropWhile (fun c => !(isQuote c))) with
      | none => simp [hq2] at h
      | some l3 =>
        simp only [hq2] at h
        have hpair := Option.some.inj h
        have hcapEq : l1.takeWhile (fun c => !(isQuote c)) = cap :=
          congrArg Prod.fst hpair
        have hrEq : l3 = r := congrArg Prod.snd hpair
        obtain ⟨c0, _, hl⟩ := quoteCh_eq hq
        obtain ⟨c2, _, hc2⟩ := quoteCh_eq hq2
        have hsplit : cap ++ (c2 :: r) = l1 := by
          rw [← hcapEq, ← hrEq, ← hc2]
          exact List.takeWhile_append_dropWhile _ _
        refine ⟨⟨[c0], c2 :: r, ?_⟩, ⟨c0 :: (cap ++ [c2]), ?_⟩, ?_⟩
        · rw [hl, ← hsplit]; rfl
        · rw [hl, ← hsplit]; simp
        · have hlen := congrArg List.length hsplit
          simp only [List.length_append, List.length_cons] at hlen
          rw [hl]
          simp only [List.length_cons]
          omega

theorem quotePart_spec {l cap r : List Char} (h : quotePart l = some (cap, r)) :
    SubOf cap l ∧ SufOf r l ∧ r.length < l.length := by
  unfold quotePart at h
  have hs := quoteTail_spec h
  have hsuf : SufOf (wsStar l) l := dropWhile_SufOf _ _
  have hlen := SufOf_length hsuf
  exact ⟨SubOf_of_SufOf hs.1 hsuf, SufOf_trans hs.2.1 hsuf, by have := hs.2.2; omega⟩

theorem tryCallMatch_spec {kw l cap r : List Char} (hkw : kw ≠ [])
    (h : tryCallMatch kw l = some (cap, r)) :
    SubOf cap l ∧ SufOf r l ∧ r.length < l.length := by
  unfold tryCallMatch at h
  cases h1 : litCs kw l with
  | none => simp [h1] at h
  | some l1 =>
    simp only [h1] at h
    cases h2 : litCs ['('] (wsStar l1) with
    | none => simp [h2] at h
    | some l2 =>
      simp only [h2] at h
      cases h3 : quoteTail (wsStar l2) with
      | none => simp [h3] at h
      | some capr =>
        obtain ⟨cap3, l3⟩ := capr
        simp only [h3] at h
        cases h4 : litCs [')'] (wsStar l3) with
        | none => simp [h4] at h
        | some l4 =>
          simp only [h4, Option.some.injEq, Prod.mk.injEq] at h
          obtain ⟨hce, hre⟩ := h
          subst hce
          subst hre
          -- suffix chain back to l
          have s1 : SufOf l1 l := litCs_SufOf h1
          have s2 : SufOf l2 (wsStar l1) := litCs_SufOf h2
          have s2' : SufOf l2 l1 := SufOf_trans s2 (dropWhile_SufOf _ _)
          have hq := quoteTail_spec h3
          have s3 : SufOf l3 l2 := SufOf_trans hq.2.1 (dropWhile_SufOf _ _)
          have s4 : SufOf l4 (wsStar l3) := litCs_SufOf h4
          have s4' : SufOf l4 l3 := SufOf_trans s4 (dropWhile_SufOf _ _)
          have sr : SufOf l4 l :=
            SufOf_trans s4' (SufOf_trans s3 (SufOf_trans s2' s1))
          have hcap : SubOf cap3 l := by
            have h6 : SubOf cap3 (wsStar l2) := hq.1
            have h5 : SubOf cap3 l2 := SubOf_of_SufOf h6 (dropWhile_SufOf _ _)
            exact SubOf_of_SufOf (SubOf_of_SufOf h5 s2') s1
          refine ⟨hcap, sr, ?_⟩
          -- strict: kw consumed at least one character
          have h1e := litCs_eq h1
          have : l1.length < l.length := by
            rw [h1e]
            cases kw with
            | nil => exact absurd rfl hkw
            | cons k ks => simp; omega
          have hr1 : l4.length ≤ l3.length := SufOf_length s4'
          have hr2 : l3.length ≤ l2.length := SufOf_length s3
          have hr3 : l2.length ≤ l1.length := SufOf_length s2'
          omega

theorem firstHit_mem : ∀ {xs : List (List Char)} {f : List Char → Option (List Char × List Char)}
    {res}, firstHit xs f = some res → ∃ x ∈ xs, f x = some res := by
  intro xs
  induction xs with
  | nil => intro f res h; simp [firstHit] at h
  | cons x xs ih =>
    intro f res h
    unfold firstHit at h
    cases hx : f x with
    | some r =>
      rw [hx] at h
      have hr : r = res := by simpa using h
      exact ⟨x, by simp, by rw [hx, hr]⟩
    | none =>
      rw [hx] at h
      obtain ⟨y, hy, hfy⟩ := ih h
      exact ⟨y, by simp [hy], hfy⟩

theorem groupEnds_SufOf {l x : List Char} (hx : x ∈ groupEnds l) : SufOf x l := by
  unfold groupEnds at hx
  rw [List.mem_filterMap] at hx
  obtain ⟨k, _, hk⟩ := hx
  by_cases hg : groupOkCs (l.take k)
  · simp only [hg, if_pos] at hk
    obtain rfl := Option.some.inj hk
    exact ⟨l.take k, (List.take_append_drop k l).symm⟩
  · simp [hg] at hk

theorem tryImportAfterKw_spec {l cap r : List Char} (h : tryImportAfterKw l = some (cap, r)) :
    SubOf cap l ∧ SufOf r l := by
  unfold tryImportAfterKw at h
  cases hf : firstHit (groupEnds l) quotePart with
  | some res =>
    simp only [hf] at h
    obtain rfl := Option.some.inj h
    obtain ⟨x, hx, hqx⟩ := firstHit_mem hf
    have hs := quotePart_spec hqx
    have hsuf := groupEnds_SufOf hx
    exact ⟨SubOf_of_SufOf hs.1 hsuf, SufOf_trans hs.2.1 hsuf⟩
  | none =>
    simp only [hf] at h
    have hs := quotePart_spec h
    exact ⟨hs.1, hs.2.1⟩

theorem tryImportMatch_spec {l cap r : List Char} (h : tryImportMatch l = some (cap, r)) :
    SubOf cap l ∧ SufOf r l ∧ r.length < l.length := by
  unfold tryImportMatch at h
  cases h1 : litCs importCs l with
  | some l1 =>
    simp only [h1] at h
    have hs := tryImportAfterKw_spec h
    have s1 : SufOf l1 l := litCs_SufOf h1
    have h1e := litCs_eq h1
    have hlt : l1.length < l.length := by rw [h1e]; simp [importCs]; omega
    have hr := SufOf_length hs.2
    exact ⟨SubOf_of_SufOf hs.1 s1, SufOf_trans hs.2 s1, by omega⟩
  | none =>
    simp only [h1] at h
    cases h2 : litCs exportCs l with
    | some l1 =>
      simp only [h2] at h
      have hs := tryImportAfterKw_spec h
      have s1 : SufOf l1 l := litCs_SufOf h2
      have h2e := litCs_eq h2
      have hlt : l1.length < l.length := by rw [h2e]; simp [exportCs]; omega
      have hr := SufOf_length hs.2
      exact ⟨SubOf_of_SufOf hs.1 s1, SufOf_trans hs.2 s1, by omega⟩
    | none => simp [h2] at h

/-! ## Scanning lemmas -/

theorem scanWith_succ (m : List Char → Option (List Char × List Char)) (n : Nat) (l : List Char) :
    scanWith m (n + 1) l =
      match m l with
      | some (cap, rest) => cap :: scanWith m n rest
      | none =>
        match l with
        | [] => []
        | _ :: t => scanWith m n t := rfl

theorem scanPos_succ (m : List Char → Option (List Char × List Char)) (n pos : Nat) (l : List Char) :
    scanPos m (n + 1) pos l =
      match m l with
      | some (cap, rest) =>
        (pos + (l.length - rest.length), cap) ::
          scanPos m n (pos + (l.length - rest.length)) rest
      | none =>
        match l with
        | [] => []
        | _ :: t => scanPos m n (pos + 1) t := rfl

theorem scanWith_SubOf {m : List Char → Option (List Char × List Char)}
    (hm : ∀ l cap r, m l = some (cap, r) → SubOf cap l ∧ SufOf r l) :
    ∀ (fuel : Nat) (l x : List Char), x ∈ scanWith m fuel l → SubOf x l := by
  intro fuel
  induction fuel with
  | zero => intro l x hx; simp [scanWith] at hx
  | succ n ih =>
    intro l x hx
    rw [scanWith_succ] at hx
    cases hml : m l with
    | some capr =>
      obtain ⟨cap, rest⟩ := capr
      simp only [hml, List.mem_cons] at hx
      rcases hx with rfl | hx
      · exact (hm l x rest hml).1
      · exact SubOf_of_SufOf (ih rest x hx) (hm l cap rest hml).2
    | none =>
      simp only [hml] at hx
      cases l with
      | nil => simp at hx
      | cons c t => exact SubOf_cons (ih t x hx)

theorem scanPos_snd {m : List Char → Option (List Char × List Char)} :
    ∀ (fuel pos : Nat) (l : List Char),
      (scanPos m fuel pos l).map Prod.snd = scanWith m fuel l := by
  intro fuel
  induction fuel with
  | zero => intro pos l; simp [scanPos, scanWith]
  | succ n ih =>
    intro pos l
    rw [scanPos_succ, scanWith_succ]
    cases hml : m l with
    | some capr =>
      obtain ⟨cap, rest⟩ := capr
      simp [hml, ih]
    | none =>
      cases l with
      | nil => simp [hml]
      | cons c t => simp [hml, ih]

theorem scanPos_lb {m : List Char → Option (List Char × List Char)}
    (hm : ∀ l cap r, m l = some (cap, r) → r.length < l.length) :
    ∀ (fuel pos : Nat) (l : List Char) (q : Nat × List Char),
      q ∈ scanPos m fuel pos l → pos < q.1 := by
  intro fuel
  induction fuel with
  | zero => intro pos l q hq; simp [scanPos] at hq
  | succ n ih =>
    intro pos l q hq
    rw [scanPos_succ] at hq
    cases hml : m l with
    | some capr =>
      obtain ⟨cap, rest⟩ := capr
      simp only [hml, List.mem_cons] at hq
      have hlt := hm l cap rest hml
      rcases hq with rfl | hq
      · simp; omega
      · have := ih (pos + (l.length - rest.length)) rest q hq
        omega
    | none =>
      simp only [hml] at hq
      cases l with
      | nil => simp at hq
      | cons c t =>
        have := ih (pos + 1) t q hq
        omega

theorem scanPos_sorted {m : List Char → Option (List Char × List Char)}
    (hm : ∀ l cap r, m l = some (cap, r) → r.length < l.length) :
    ∀ (fuel pos : Nat) (l : List Char),
      (scanPos m fuel pos l).Pairwise (fun a b => a.1 < b.1) := by
  intro fuel
  induction fuel with
  | zero => intro pos l; simp [scanPos]
  | succ n ih =>
    intro pos l
    rw [scanPos_succ]
    cases hml : m l with
    | some capr =>
      obtain ⟨cap, rest⟩ := capr
      refine List.Pairwise.cons ?_ (ih _ rest)
      intro q hq
      exact scanPos_lb hm n _ rest q hq
    | none =>
      cases l with
      | nil => exact List.Pairwise.nil
      | cons c t => exact ih (pos + 1) t

/-! ## Extraction-level lemmas -/

theorem extractMatches_SubOf {l x : List Char} (hx : x ∈ extractMatches l) : SubOf x l := by
  unfold extractMatches at hx
  have himp : ∀ l2 cap r, tryImportMatch l2 = some (cap, r) → SubOf cap l2 ∧ SufOf r l2 := by
    intro l2 cap r h
    have := tryImportMatch_spec h
    exact ⟨this.1, this.2.1⟩
  have hreq : ∀ l2 cap r, tryCallMatch requireCs l2 = some (cap, r) →
      SubOf cap l2 ∧ SufOf r l2 := by
    intro l2 cap r h
    have := tryCallMatch_spec (by simp [requireCs]) h
    exact ⟨this.1, this.2.1⟩
  have hdyn : ∀ l2 cap r, tryCallMatch importCs l2 = some (cap, r) →
      SubOf cap l2 ∧ SufOf r l2 := by
    intro l2 cap r h
    have := tryCallMatch_spec (by simp [importCs]) h
    exact ⟨this.1, this.2.1⟩
  rcases List.mem_append.mp hx with hx1 | hx2
  · rcases List.mem_append.mp hx1 with hx3 | hx3
    · exact scanWith_SubOf himp _ l x hx3
    · exact scanWith_SubOf hreq _ l x hx3
  · exact scanWith_SubOf hdyn _ l x hx2

theorem importsOfContent_hasSub {c s : String} (hs : s ∈ importsOfContent c) :
    hasSub (stripCommentsCs c.data) s.data = true := by
  unfold importsOfContent at hs
  rw [List.mem_map] at hs
  obtain ⟨cs, hcs, rfl⟩ := hs
  rw [hasSub_iff]
  exact extractMatches_SubOf hcs

/-! ## Scanner-loop lemmas -/

theorem scanLoop_zero (fs : FSState) (ie : String → Bool) (st : ScanSt) :
    scanLoop fs ie 0 st =
      match st.queue with
      | [] => some st
      | _ :: _ => none := rfl

theorem scanLoop_succ (fs : FSState) (ie : String → Bool) (n : Nat) (st : ScanSt) :
    scanLoop fs ie (n + 1) st =
      match st.queue with
      | [] => some st
      | f :: rest => scanLoop fs ie n (scanStep fs ie f { st with queue := rest }) := rfl

theorem scanLoop_nilq {fs : FSState} {ie : String → Bool} {fuel : Nat} {st : ScanSt}
    (hq : st.queue = []) : scanLoop fs ie fuel st = some st := by
  cases fuel with
  | zero => rw [scanLoop_zero, hq]
  | succ n => rw [scanLoop_succ, hq]

theorem insertEnd_not_mem {l : List String} {s d : String} (hs : s ∉ l) (hd : s ≠ d) :
    s ∉ insertEnd l d := by
  unfold insertEnd
  by_cases h : d ∈ l
  · simpa [h] using hs
  · simp [h, hs, hd]

theorem lookupFile_mem {fs : FSState} {p c : String} (h : lookupFile fs p = some c) :
    (p, c) ∈ fs.files := by
  unfold lookupFile at h
  cases hf : fs.files.find? (fun e => e.1 = p) with
  | none => rw [hf] at h; cases h
  | some e =>
    rw [hf] at h
    have he : e ∈ fs.files := List.mem_of_find?_eq_some hf
    have hp : e.1 = p := by
      have := List.find?_some hf
      exact of_decide_eq_true this
    have hc : e.2 = c := Option.some.inj h
    have : e = (p, c) := Prod.ext hp hc
    rwa [this] at he

theorem processDeps_exts_not_mem {fs : FSState} {ie : String → Bool} {file : String}
    {s : String} : ∀ {deps : List String} {st : ScanSt},
    s ∉ st.exts → s ∉ deps → s ∉ (processDeps fs ie file deps st).exts := by
  intro deps
  induction deps with
  | nil => intro st h _; exact h
  | cons d ds ih =>
    intro st hst hd
    have hs_ne : s ≠ d := fun he => hd (he ▸ List.mem_cons_self d ds)
    have hds : s ∉ ds := fun he => hd (List.mem_cons_of_mem d he)
    unfold processDeps
    simp only [List.foldl_cons]
    apply ih _ hds
    by_cases hv : isValidImportPath d
    · simp only [hv]
      by_cases hie : ie d
      · simpa [hie] using insertEnd_not_mem hst hs_ne
      · simp only [hie]
        cases hr : resolveLocalImport fs d file with
        | some r =>
          by_cases hvis : r ∈ st.visited
          · simpa [hr, hvis] using hst
          · simpa [hr, hvis] using hst
        | none => simpa [hr] using hst
    · simpa [hv] using hst

theorem scanStep_exts_not_mem {fs : FSState} {ie : String → Bool} {f : String} {st : ScanSt}
    {s : String} (hfs : ∀ pc ∈ fs.files, s ∉ importsOfContent pc.2)
    (hst : s ∉ st.exts) : s ∉ (scanStep fs ie f st).exts := by
  unfold scanStep
  by_cases hvis : f ∈ st.visited
  · simpa [hvis] using hst
  · by_cases hex : existsF fs f
    · cases hlk : lookupFile fs f with
      | none => simpa [hvis, hex, hlk] using hst
      | some c =>
        have hmem := lookupFile_mem hlk
        have hdeps : s ∉ importsOfContent c := hfs (f, c) hmem
        have hst2 : s ∉
            ({ st with visited := f :: st.visited,
                       scanned := st.scanned ++ [f] } : ScanSt).exts := hst
        simpa [hvis, hex, hlk] using
          processDeps_exts_not_mem (s := s) hst2 hdeps
    · simp only [Bool.not_eq_true] at hex
      simpa [hvis, hex] using hst

theorem scanLoop_exts_not_mem {fs : FSState} {ie : String → Bool} {s : String}
    (hfs : ∀ pc ∈ fs.files, s ∉ importsOfContent pc.2) :
    ∀ (fuel : Nat) (st st2 : ScanSt), scanLoop fs ie fuel st = some st2 →
      s ∉ st.exts → s ∉ st2.exts := by
  intro fuel
  induction fuel with
  | zero =>
    intro st st2 h hst
    rw [scanLoop_zero] at h
    cases hq : st.queue with
    | nil => simp only [hq] at h; obtain rfl := Option.some.inj h; exact hst
    | cons f rest =>
      simp only [hq] at h
      exact Option.noConfusion h
  | succ n ih =>
    intro st st2 h hst
    rw [scanLoop_succ] at h
    cases hq : st.queue with
    | nil => simp only [hq] at h; obtain rfl := Option.some.inj h; exact hst
    | cons f rest =>
      simp only [hq] at h
      exact ih _ _ h (scanStep_exts_not_mem hfs hst)

/-! ## Termination of the closure scanner -/

theorem processDeps_visited (fs : FSState) (ie : String → Bool) (file : String) :
    ∀ (deps : List String) (st : ScanSt),
      (processDeps fs ie file deps st).visited = st.visited := by
  intro deps
  induction deps with
  | nil => intro st; rfl
  | cons d ds ih =>
    intro st
    unfold processDeps
    simp only [List.foldl_cons]
    rw [show (List.foldl _ _ ds : ScanSt) = processDeps fs ie file ds _ from rfl, ih]
    by_cases hv : isValidImportPath d
    · simp only [hv]
      by_cases hie : ie d
      · simp [hie]
      · simp only [hie]
        cases hr : resolveLocalImport fs d file with
        | some r =>
          by_cases hvis : r ∈ st.visited
          · simp [hvis]
          · simp [hvis]
        | none => simp
    · simp [hv]

theorem processDeps_scanned (fs : FSState) (ie : String → Bool) (file : String) :
    ∀ (deps : List String) (st : ScanSt),
      (processDeps fs ie file deps st).scanned = st.scanned := by
  intro deps
  induction deps with
  | nil => intro st; rfl
  | cons d ds ih =>
    intro st
    unfold processDeps
    simp only [List.foldl_cons]
    rw [show (List.foldl _ _ ds : ScanSt) = processDeps fs ie file ds _ from rfl, ih]
    by_cases hv : isValidImportPath d
    · simp only [hv]
      by_cases hie : ie d
      · simp [hie]
      · simp only [hie]
        cases hr : resolveLocalImport fs d file with
        | some r =>
          by_cases hvis : r ∈ st.visited
          · simp [hvis]
          · simp [hvis]
        | none => simp
    · simp [hv]

theorem processDeps_cons (fs : FSState) (ie : String → Bool) (file d : String)
    (ds : List String) (st : ScanSt) :
    processDeps fs ie file (d :: ds) st =
      processDeps fs ie file ds
        (if !isValidImportPath d then st
         else if ie d then { st with exts := insertEnd st.exts d }
         else
           match resolveLocalImport fs d file with
           | some r =>
             if st.visited.contains r then st else { st with queue := st.queue ++ [r] }
           | none => st) := rfl

theorem processDeps_queue_le (fs : FSState) (ie : String → Bool) (file : String) :
    ∀ (deps : List String) (st : ScanSt),
      (processDeps fs ie file deps st).queue.length ≤ st.queue.length + deps.length := by
  intro deps
  induction deps with
  | nil => intro st; simp [processDeps]
  | cons d ds ih =>
    intro st
    rw [processDeps_cons]
    by_cases hv : isValidImportPath d
    · simp only [hv, Bool.not_true, Bool.false_eq_true, if_false]
      by_cases hie : ie d
      · simp only [hie, if_true]
        have h1 := ih { st with exts := insertEnd st.exts d }
        have h2 : ({ st with exts := insertEnd st.exts d } : ScanSt).queue = st.queue := rfl
        rw [h2] at h1
        simp only [List.length_cons]
        omega
      · simp only [hie, Bool.false_eq_true, if_false]
        cases hr : resolveLocalImport fs d file with
        | some r =>
          by_cases hvis : st.visited.contains r
          · simp only [hvis, if_true]
            have h1 := ih st
            simp only [List.length_cons]
            omega
          · simp only [hvis, Bool.false_eq_true, if_false]
            have h1 := ih { st with queue := st.queue ++ [r] }
            have h2 : ({ st with queue := st.queue ++ [r] } : ScanSt).queue.length
                = st.queue.length + 1 := by simp
            rw [h2] at h1
            simp only [List.length_cons]
            omega
        | none =>
          have h1 := ih st
          simp only [List.length_cons]
          omega
    · simp only [hv, Bool.not_false, if_true]
      have h1 := ih st
      simp only [List.length_cons]
      omega

theorem existsF_iff_univ {fs : FSState} {f : String} :
    existsF fs f = true ↔ f ∈ univPaths fs := by
  unfold existsF univPaths
  rw [List.mem_dedup, List.mem_append]
  simp only [Bool.or_eq_true, List.any_eq_true, decide_eq_true_eq, List.mem_map]
  constructor
  · rintro (⟨e, he, rfl⟩ | hc)
    · exact Or.inl ⟨e, he, rfl⟩
    · exact Or.inr (by simpa using hc)
  · rintro (⟨e, he, rfl⟩ | hd)
    · exact Or.inl ⟨e, he, rfl⟩
    · exact Or.inr (by simpa using hd)

theorem sum_filter_cons_out (g : String → Nat) :
    ∀ {l : List String} {v : List String} {f : String}, l.Nodup → f ∈ l → f ∉ v →
      ((l.filter (fun p => !((f :: v).contains p))).map g).sum + g f
        = ((l.filter (fun p => !(v.contains p))).map g).sum := by
  intro l
  induction l with
  | nil => intro v f _ hf; cases hf
  | cons a t ih =>
    intro v f hnd hf hfv
    have hat : a ∉ t := (List.nodup_cons.mp hnd).1
    have hndt : t.Nodup := (List.nodup_cons.mp hnd).2
    by_cases hfa : f = a
    · subst hfa
      have hcv : v.contains f = false := by
        cases hc : v.contains f
        · rfl
        · exact absurd (by simpa using hc) hfv
      have hcfv : (f :: v).contains f = true := by
        simp only [List.contains_cons, BEq.refl, Bool.true_or]
      simp only [List.filter_cons, hcfv, Bool.not_true, Bool.false_eq_true, if_false,
        hcv, Bool.not_false, if_true, List.map_cons, List.sum_cons]
      have hcong : t.filter (fun p => !((f :: v).contains p)) = t.filter (fun p => !(v.contains p)) := by
        apply List.filter_congr
        intro p hp
        have hpf : p ≠ f := fun he => hat (he ▸ hp)
        simp [List.contains_cons, hpf]
      rw [hcong]
      omega
    · have hft : f ∈ t := by
        rcases List.mem_cons.mp hf with h | h
        · exact absurd h hfa
        · exact h
      have hca : (f :: v).contains a = v.contains a := by
        have haf : (a == f) = false := by
          simp only [beq_eq_false_iff_ne, ne_eq]
          exact fun h => hfa h.symm
        simp only [List.contains_cons, haf, Bool.false_or]
      cases hcv : v.contains a with
      | true =>
        simp only [List.filter_cons, hca, hcv, Bool.not_true, Bool.false_eq_true, if_false]
        exact ih hndt hft hfv
      | false =>
        simp only [List.filter_cons, hca, hcv, Bool.not_false, if_true,
          List.map_cons, List.sum_cons]
        have := ih (v := v) (f := f) hndt hft hfv
        omega

theorem scanStep_eq (fs : FSState) (ie : String → Bool) (f : String) (st : ScanSt) :
    scanStep fs ie f st =
      if st.visited.contains f then st
      else
        if !existsF fs f then
          { st with visited := f :: st.visited, scanned := st.scanned ++ [f] }
        else
          match lookupFile fs f with
          | none => { st with visited := f :: st.visited, scanned := st.scanned ++ [f] }
          | some c =>
            processDeps fs ie f (importsOfContent c)
              { st with visited := f :: st.visited, scanned := st.scanned ++ [f] } := rfl

theorem containsS_iff {l : List String} {s : String} : l.contains s = true ↔ s ∈ l := by
  induction l with
  | nil => simp [List.contains_nil]
  | cons a t ih =>
    simp only [List.contains_cons, Bool.or_eq_true, beq_iff_eq, ih, List.mem_cons]

theorem potSum_skip {fs : FSState} {v : List String} {f : String}
    (hf : f ∉ univPaths fs) : potSum fs (f :: v) = potSum fs v := by
  unfold potSum
  have hcong : (univPaths fs).filter (fun p => !((f :: v).contains p))
      = (univPaths fs).filter (fun p => !(v.contains p)) := by
    apply List.filter_congr
    intro p hp
    have hpf : (p == f) = false := by
      simp only [beq_eq_false_iff_ne, ne_eq]
      intro he
      exact hf (he ▸ hp)
    simp only [List.contains_cons, hpf, Bool.false_or]
  rw [hcong]

theorem potSum_out {fs : FSState} {v : List String} {f : String}
    (hf : f ∈ univPaths fs) (hfv : f ∉ v) :
    potSum fs (f :: v) + (1 + fileBudget fs f) = potSum fs v := by
  unfold potSum
  exact sum_filter_cons_out (fun p => 1 + fileBudget fs p) (List.nodup_dedup _) hf hfv

theorem scanPot_dec (fs : FSState) (ie : String → Bool) (f : String) (rest : List String)
    (v e sc : List String) :
    scanPot fs (scanStep fs ie f ⟨rest, v, e, sc⟩) < scanPot fs ⟨f :: rest, v, e, sc⟩ := by
  have hpotst : scanPot fs (⟨f :: rest, v, e, sc⟩ : ScanSt)
      = rest.length + 1 + potSum fs v := by
    unfold scanPot
    simp [List.length_cons]
  rw [scanStep_eq, hpotst]
  by_cases hvis : v.contains f = true
  · rw [if_pos (show (ScanSt.mk rest v e sc).visited.contains f = true from hvis)]
    show rest.length + potSum fs v < rest.length + 1 + potSum fs v
    omega
  · have hfv : f ∉ v := fun hm => hvis (containsS_iff.mpr hm)
    rw [if_neg (show ¬(ScanSt.mk rest v e sc).visited.contains f = true from hvis)]
    by_cases hex : existsF fs f = true
    · rw [if_neg (show ¬(!existsF fs f) = true by simp [hex])]
      cases hlk : lookupFile fs f with
      | none =>
        have hbud : fileBudget fs f = 0 := by unfold fileBudget; rw [hlk]
        have hout := potSum_out (existsF_iff_univ.mp hex) hfv
        rw [hbud] at hout
        show rest.length + potSum fs (f :: v) < rest.length + 1 + potSum fs v
        omega
      | some c =>
        have hbud : fileBudget fs f = (importsOfContent c).length := by
          unfold fileBudget; rw [hlk]
        have hout := potSum_out (existsF_iff_univ.mp hex) hfv
        rw [hbud] at hout
        have hqle := processDeps_queue_le fs ie f (importsOfContent c)
          ⟨rest, f :: v, e, sc ++ [f]⟩
        have hvq := processDeps_visited fs ie f (importsOfContent c)
          ⟨rest, f :: v, e, sc ++ [f]⟩
        show scanPot fs (processDeps fs ie f (importsOfContent c)
          ⟨rest, f :: v, e, sc ++ [f]⟩) < rest.length + 1 + potSum fs v
        unfold scanPot
        rw [hvq]
        have hq2 : (ScanSt.mk rest (f :: v) e (sc ++ [f])).queue = rest := rfl
        rw [hq2] at hqle
        show (processDeps fs ie f (importsOfContent c)
          ⟨rest, f :: v, e, sc ++ [f]⟩).queue.length + potSum fs (f :: v)
            < rest.length + 1 + potSum fs v
        omega
    · rw [if_pos (show (!existsF fs f) = true by
        cases hc : existsF fs f
        · rfl
        · exact absurd hc hex)]
      have hskip := potSum_skip (v := v) (fun hm => hex (existsF_iff_univ.mpr hm))
      show rest.length + potSum fs (f :: v) < rest.length + 1 + potSum fs v
      omega

theorem scanLoop_total (fs : FSState) (ie : String → Bool) :
    ∀ (n : Nat) (st : ScanSt), scanPot fs st ≤ n →
      ∃ st2, scanLoop fs ie n st = some st2 := by
  intro n
  induction n with
  | zero =>
    intro st hle
    obtain ⟨q, v, e, sc⟩ := st
    cases q with
    | nil => exact ⟨⟨[], v, e, sc⟩, rfl⟩
    | cons f rest =>
      exfalso
      have h1 : 1 ≤ scanPot fs ⟨f :: rest, v, e, sc⟩ := by
        unfold scanPot
        simp [List.length_cons]
        omega
      omega
  | succ n ih =>
    intro st hle
    obtain ⟨q, v, e, sc⟩ := st
    cases q with
    | nil => exact ⟨⟨[], v, e, sc⟩, rfl⟩
    | cons f rest =>
      have hdec := scanPot_dec fs ie f rest v e sc
      have hle2 : scanPot fs (scanStep fs ie f ⟨rest, v, e, sc⟩) ≤ n := by omega
      obtain ⟨st2, hst2⟩ := ih _ hle2
      exact ⟨st2, hst2⟩

theorem scanStep_scanned_inv (fs : FSState) (ie : String → Bool) (f : String) (st : ScanSt)
    (h1 : st.scanned.Nodup) (h2 : ∀ x ∈ st.scanned, x ∈ st.visited) :
    (scanStep fs ie f st).scanned.Nodup ∧
      (∀ x ∈ (scanStep fs ie f st).scanned, x ∈ (scanStep fs ie f st).visited) := by
  rw [scanStep_eq]
  by_cases hvis : st.visited.contains f = true
  · rw [if_pos hvis]
    exact ⟨h1, h2⟩
  · have hfv : f ∉ st.visited := fun hm => hvis (containsS_iff.mpr hm)
    have hfs : f ∉ st.scanned := fun hm => hfv (h2 f hm)
    have hnodup : (st.scanned ++ [f]).Nodup := by
      rw [List.nodup_append]
      refine ⟨h1, List.nodup_singleton f, ?_⟩
      intro a ha hb
      simp only [List.mem_singleton] at hb
      exact hfs (hb ▸ ha)
    have hmem : ∀ x ∈ st.scanned ++ [f], x ∈ f :: st.visited := by
      intro x hx
      rcases List.mem_append.mp hx with hx | hx
      · exact List.mem_cons_of_mem f (h2 x hx)
      · simp only [List.mem_singleton] at hx
        exact hx ▸ List.mem_cons_self f _
    rw [if_neg hvis]
    by_cases hex : existsF fs f = true
    · rw [if_neg (show ¬(!existsF fs f) = true by simp [hex])]
      cases hlk : lookupFile fs f with
      | none => exact ⟨hnodup, hmem⟩
      | some c =>
        rw [processDeps_scanned, processDeps_visited]
        exact ⟨hnodup, hmem⟩
    · rw [if_pos (show (!existsF fs f) = true by
        cases hc : existsF fs f
        · rfl
        · exact absurd hc hex)]
      exact ⟨hnodup, hmem⟩

theorem scanLoop_scanned_nodup (fs : FSState) (ie : String → Bool) :
    ∀ (fuel : Nat) (st st2 : ScanSt), scanLoop fs ie fuel st = some st2 →
      st.scanned.Nodup → (∀ x ∈ st.scanned, x ∈ st.visited) → st2.scanned.Nodup := by
  intro fuel
  induction fuel with
  | zero =>
    intro st st2 h hn hm
    rw [scanLoop_zero] at h
    cases hq : st.queue with
    | nil => simp only [hq] at h; obtain rfl := Option.some.inj h; exact hn
    | cons f rest =>
      simp only [hq] at h
      exact Option.noConfusion h
  | succ n ih =>
    intro st st2 h hn hm
    rw [scanLoop_succ] at h
    cases hq : st.queue with
    | nil => simp only [hq] at h; obtain rfl := Option.some.inj h; exact hn
    | cons f rest =>
      simp only [hq] at h
      have hstep := scanStep_scanned_inv fs ie f { st with queue := rest } hn hm
      exact ih _ _ h hstep.1 hstep.2

/-! ## Claim theorems -/

/-- C1: on every finite filesystem and entrypoint list — in particular on
graphs of imports with a cycle — the Closure Scanner terminates (the loop, run
with the computed fuel, reaches an empty queue and returns a state), and the
trace of scanned files has no duplicates, so every file is scanned at most
once; on the concrete two-file cycle (`/a.ts` imports `/b.ts` imports
`/a.ts`), each of the two files is scanned exactly once and the external set
is exactly `lodash`. -/
theorem c1_closure_scanner_terminates_scans_once :
    (∀ (fs : FSState) (ie : String → Bool) (cwd : String) (entrypoints : List String),
      ∃ st, collectExternalDependencies fs ie cwd entrypoints = some st ∧
        st.scanned.Nodup) ∧
    (collectExternalDependencies fsCyc defaultIsExternal "/" ["/a.ts"]).map
        (fun st => (st.scanned.count "/a.ts", st.scanned.count "/b.ts", st.exts))
      = some (1, 1, ["lodash"]) := by
  constructor
  · intro fs ie cwd entrypoints
    unfold collectExternalDependencies
    obtain ⟨st2, hst2⟩ := scanLoop_total fs ie
      (scanPot fs (initScanSt cwd entrypoints) + 1) (initScanSt cwd entrypoints) (by omega)
    refine ⟨st2, hst2, ?_⟩
    exact scanLoop_scanned_nodup fs ie _ _ _ hst2 (by simp [initScanSt])
      (by simp [initScanSt])
  · decide

/-- C2: rewriting the four-form first-party artifact against the external
set `pkg, pkg2, pkg3, pkg4` produces exactly the expected text: one single
prepended vendor import naming all four aliases from `./vendor.js`, the four
the import/require forms replaced by const bindings or bare alias references;
the prepended statement occurs exactly once and none of the four quoted
specifiers survives as an import/require target. -/
theorem c2_round_trip_rewrite :
    c2Rewritten =
      "import \x7b _dep0, _dep1, _dep2, _dep3 \x7d from \"./vendor.js\";\nconst x = _dep0.default || _dep0;\nconst y = _dep1;\nconst \x7b a, b: c \x7d = _dep2;\nconst d = _dep3;\n" ∧
    countSub c2Rewritten.data (vendorImportStmt c2Ext "./vendor.js").data = 1 ∧
    hasSub c2Rewritten.data "\"pkg\"".data = false ∧
    hasSub c2Rewritten.data "\"pkg2\"".data = false ∧
    hasSub c2Rewritten.data "\"pkg3\"".data = false ∧
    hasSub c2Rewritten.data "\"pkg4\"".data = false := by
  refine ⟨by decide, by decide, by decide, by decide, by decide, by decide⟩

/-- C4 (code evaluation at the failing input): for `./lib` imported from
`/src/a.ts`, where `/src/lib` is an existing directory containing
`index.ts`, the resolver returns the directory path `/src/lib` itself via
the empty-string extension probe instead of proceeding to the index-file
list; consequently the closure scan of `/src/a.ts` misses the external
dependency `lodash` that `/src/lib/index.ts` imports. -/
theorem c4_resolver_returns_directory :
    resolveLocalImport c4Fs "./lib" "/src/a.ts" = some "/src/lib" ∧
    isDirF c4Fs "/src/lib" = true ∧
    existsF c4Fs "/src/lib/index.ts" = true ∧
    (collectExternalDependencies c4Fs defaultIsExternal "/" ["/src/a.ts"]).map
        (fun st => st.exts) = some [] := by
  refine ⟨by decide, by decide, by decide, by decide⟩

/-! ## Alias-mapping lemmas -/

theorem parseDec_append (a : List Char) (c : Char) :
    parseDec (a ++ [c]) = parseDec a * 10 + (c.toNat - 48) := by
  unfold parseDec
  rw [List.foldl_append]
  rfl

theorem digitChar_val : ∀ d < 10, (Nat.digitChar d).toNat - 48 = d := by decide

theorem decDigitsAux_parse : ∀ (f n : Nat), n ≤ f → parseDec (decDigitsAux (f + 1) n) = n := by
  intro f
  induction f with
  | zero =>
    intro n hn
    have : n = 0 := Nat.le_zero.mp hn
    subst this
    decide
  | succ f ih =>
    intro n hn
    by_cases h10 : n < 10
    · show parseDec (decDigitsAux (f + 1 + 1) n) = n
      unfold decDigitsAux
      rw [if_pos h10]
      show parseDec [Nat.digitChar n] = n
      unfold parseDec
      simp only [List.foldl_cons, List.foldl_nil, Nat.zero_mul, Nat.zero_add]
      exact digitChar_val n h10
    · show parseDec (decDigitsAux (f + 1 + 1) n) = n
      unfold decDigitsAux
      rw [if_neg h10]
      have hpos : 0 < n := by omega
      have hdivlt : n / 10 < n := Nat.div_lt_self hpos (by norm_num)
      have hdivle : n / 10 ≤ f := by omega
      rw [parseDec_append, ih (n / 10) hdivle]
      have hm : n % 10 < 10 := Nat.mod_lt _ (by norm_num)
      rw [digitChar_val (n % 10) hm]
      omega

theorem decRepr_inj : Function.Injective decRepr := by
  intro a b h
  unfold decRepr at h
  have hdata : decDigitsAux (a + 1) a = decDigitsAux (b + 1) b :=
    congrArg String.data h
  have := congrArg parseDec hdata
  rwa [decDigitsAux_parse a a (Nat.le_refl a), decDigitsAux_parse b b (Nat.le_refl b)] at this

theorem aliasAt_inj : ∀ {i j : Nat}, aliasAt i = aliasAt j → i = j := by
  intro i j h
  unfold aliasAt at h
  have hdata := congrArg String.data h
  rw [String.data_append, String.data_append] at hdata
  have h2 : (decRepr i).data = (decRepr j).data := List.append_cancel_left hdata
  have h3 : decRepr i = decRepr j := by
    unfold decRepr at h2 ⊢
    exact congrArg String.mk h2
  exact decRepr_inj h3

theorem idxFrom_length : ∀ (l : List α) (n : Nat), (idxFrom n l).length = l.length := by
  intro l
  induction l with
  | nil => intro n; rfl
  | cons a t ih => intro n; simp [idxFrom, ih]

theorem lookupA_idxFrom : ∀ (ext : List String) (n i : Nat) (h : i < ext.length),
    ext.Nodup →
    lookupA ((idxFrom n ext).map (fun e => (e.2, aliasAt e.1))) (ext.get ⟨i, h⟩)
      = some (aliasAt (n + i)) := by
  intro ext
  induction ext with
  | nil => intro n i h; exact absurd h (by simp)
  | cons a t ih =>
    intro n i h hnd
    have hat : a ∉ t := (List.nodup_cons.mp hnd).1
    have hndt : t.Nodup := (List.nodup_cons.mp hnd).2
    cases i with
    | zero =>
      show lookupA ((a, aliasAt n) :: (idxFrom (n + 1) t).map (fun e => (e.2, aliasAt e.1))) a
        = some (aliasAt (n + 0))
      unfold lookupA
      simp [List.find?]
    | succ j =>
      have hj : j < t.length := by simpa using h
      have hget : (a :: t).get ⟨j + 1, h⟩ = t.get ⟨j, hj⟩ := rfl
      rw [hget]
      have hne : a ≠ t.get ⟨j, hj⟩ := fun he => hat (he ▸ List.get_mem t j hj)
      show lookupA ((a, aliasAt n) :: (idxFrom (n + 1) t).map (fun e => (e.2, aliasAt e.1)))
        (t.get ⟨j, hj⟩) = some (aliasAt (n + (j + 1)))
      unfold lookupA
      rw [List.find?_cons]
      have hd : (decide (((a, aliasAt n) : String × String).1 = t.get ⟨j, hj⟩)) = false := by
        simp only [decide_eq_false_iff_not]
        exact hne
      rw [hd]
      have := ih (n + 1) j hj hndt
      unfold lookupA at this
      rw [show n + 1 + j = n + (j + 1) from by omega] at this
      exact this

theorem aliasFor_get (ext : List String) (hnd : ext.Nodup) (i : Nat) (h : i < ext.length) :
    aliasFor ext (ext.get ⟨i, h⟩) = some (aliasAt i) := by
  unfold aliasFor depMapping withIdx
  simpa using lookupA_idxFrom ext 0 i h hnd

theorem idxFrom_get? : ∀ (l : List α) (n i : Nat),
    (idxFrom n l).get? i = (l.get? i).map (fun a => (n + i, a)) := by
  intro l
  induction l with
  | nil => intro n i; cases i <;> rfl
  | cons a t ih =>
    intro n i
    cases i with
    | zero => rfl
    | succ j =>
      show (idxFrom (n + 1) t).get? j = (t.get? j).map (fun a => (n + (j + 1), a))
      rw [ih (n + 1) j]
      have : ∀ x : α, (n + 1 + j, x) = (n + (j + 1), x) := by
        intro x
        rw [show n + 1 + j = n + (j + 1) from by omega]
      cases t.get? j with
      | none => rfl
      | some x => simp [this]

theorem withIdx_map_agree (ext : List String) (hnd : ext.Nodup)
    (f : String → String → String) :
    (withIdx ext).map (fun e => f (aliasAt e.1) e.2)
      = ext.map (fun d => f ((aliasFor ext d).getD "") d) := by
  apply List.ext
  intro i
  rw [List.get?_map, List.get?_map]
  unfold withIdx
  rw [idxFrom_get?]
  cases hg : ext.get? i with
  | none => rfl
  | some d =>
    obtain ⟨hlt, hget⟩ := List.get?_eq_some.mp hg
    simp only [Option.map_some']
    rw [← hget, aliasFor_get ext hnd i hlt]
    rw [show (0 : Nat) + i = i from by omega]
    rfl

/-- C5: within one build, the alias mapping from external specifiers to
`_dep0, _dep1, ...` is injective on the external array (distinct specifiers
never share an alias), stable (the specifier at index `i` always maps to
`_depi`), and the same mapping is used by the vendor entry module's
re-export lines and by the consolidated vendor import of the rewriter. -/
theorem c5_alias_mapping_injective_stable (ext : List String) (hnd : ext.Nodup) :
    (∀ d1 ∈ ext, ∀ d2 ∈ ext, aliasFor ext d1 = aliasFor ext d2 → d1 = d2) ∧
    (∀ i, ∀ h : i < ext.length, aliasFor ext (ext.get ⟨i, h⟩) = some (aliasAt i)) ∧
    vendorEntryContent ext = String.intercalate "\n" (ext.map (fun d =>
      "export * as " ++ ((aliasFor ext d).getD "") ++ " from \"" ++ d ++ "\";")) ∧
    (∀ vp, vendorImportStmt ext vp = "import \x7b " ++
      String.intercalate ", " (ext.map (fun d => (aliasFor ext d).getD "")) ++
      " \x7d from \"" ++ vp ++ "\";\n") := by
  refine ⟨?_, ?_, ?_, ?_⟩
  · intro d1 h1 d2 h2 heq
    obtain ⟨i1, hg1⟩ := List.get_of_mem h1
    obtain ⟨i2, hg2⟩ := List.get_of_mem h2
    have e1 : aliasFor ext d1 = some (aliasAt i1.1) := by
      rw [← hg1]
      exact aliasFor_get ext hnd i1.1 i1.2
    have e2 : aliasFor ext d2 = some (aliasAt i2.1) := by
      rw [← hg2]
      exact aliasFor_get ext hnd i2.1 i2.2
    rw [e1, e2] at heq
    have : i1.1 = i2.1 := aliasAt_inj (Option.some.inj heq)
    rw [← hg1, ← hg2]
    congr 1
    exact Fin.ext this
  · intro i h
    exact aliasFor_get ext hnd i h
  · exact congrArg (String.intercalate "\n")
      (withIdx_map_agree ext hnd (fun al d => "export * as " ++ al ++ " from \"" ++ d ++ "\";"))
  · intro vp
    have := withIdx_map_agree ext hnd (fun al _ => al)
    unfold vendorImportStmt
    rw [this]

/-- Witness for C5 at a concrete external array. -/
theorem c5_alias_mapping_witness :
    aliasFor ["lodash", "left-pad"] "left-pad" = some "_dep1" :=
  ((c5_alias_mapping_injective_stable ["lodash", "left-pad"] (by decide)).2.1 1
    (by decide)).trans (by decide)

/-! ## Build-phase and plugin lemmas -/

theorem stringEqOfData {a b : String} (h : a.data = b.data) : a = b := by
  cases a with
  | mk ad =>
    cases b with
    | mk bd => exact congrArg String.mk (by simpa using h)

theorem phase2_fst (f : String → String) :
    ∀ (outs : List ArtifactM) (acc : List ArtifactM) (fs : FSState),
      (outs.foldl (phase2Step f) (acc, fs)).1 = acc ++ outs := by
  intro outs
  induction outs with
  | nil => intro acc fs; simp
  | cons a t ih =>
    intro acc fs
    rw [List.foldl_cons]
    have hstep : ∃ fs2, phase2Step f (acc, fs) a = (acc ++ [a], fs2) := by
      unfold phase2Step
      by_cases hjs : jsLike a.path = true
      · by_cases hemp : (jsTrimCs a.text.data).isEmpty = true
        · exact ⟨fs, by rw [if_pos hjs, if_pos hemp]⟩
        · exact ⟨fsWrite fs a.path (f a.text), by rw [if_pos hjs, if_neg hemp]⟩
      · exact ⟨fs, by rw [if_neg hjs]⟩
    obtain ⟨fs2, hfs2⟩ := hstep
    rw [hfs2, ih]
    simp

theorem phase2_outputs (f : String → String) (outs : List ArtifactM) (fs : FSState) :
    (phase2 f outs fs).1 = outs := by
  unfold phase2
  rw [phase2_fst]
  simp

theorem isSufCs_iff {pat l : List Char} : isSufCs pat l = true ↔ ∃ t, l = t ++ pat := by
  unfold isSufCs
  rw [isPreOf_iff]
  constructor
  · rintro ⟨r, hr⟩
    refine ⟨r.reverse, ?_⟩
    have h2 := congrArg List.reverse hr
    simpa using h2
  · rintro ⟨t, rfl⟩
    exact ⟨t.reverse, by simp⟩

theorem jsLike_iff {p : String} :
    jsLike p = true ↔ ∃ stem : String, p = stem ++ ".js" ∨ p = stem ++ ".mjs" := by
  unfold jsLike
  rw [Bool.or_eq_true, isSufCs_iff, isSufCs_iff]
  constructor
  · rintro (⟨t, ht⟩ | ⟨t, ht⟩)
    · refine ⟨String.mk t, Or.inl (stringEqOfData ?_)⟩
      rw [String.data_append]
      exact ht
    · refine ⟨String.mk t, Or.inr (stringEqOfData ?_)⟩
      rw [String.data_append]
      exact ht
  · rintro ⟨stem, h | h⟩
    · subst h
      exact Or.inl ⟨stem.data, by rw [String.data_append]⟩
    · subst h
      exact Or.inr ⟨stem.data, by rw [String.data_append]⟩

/-- C9: in the obfuscation phase, a `.js`/`.mjs` artifact whose text is
empty or whitespace-only is passed through with no file write and without
invoking the obfuscator (the phase result does not depend on the
transformation function), and a non-JS artifact is likewise passed through
unchanged; in every branch the artifact object itself lands unchanged in
the returned outputs. -/
theorem c9_empty_and_nonjs_pass_through (a : ArtifactM) (acc : List ArtifactM)
    (fs : FSState) (f g : String → String)
    (h : (jsLike a.path = true ∧ (jsTrimCs a.text.data).isEmpty = true) ∨
         jsLike a.path = false) :
    phase2Step f (acc, fs) a = (acc ++ [a], fs) ∧
    phase2Step f (acc, fs) a = phase2Step g (acc, fs) a ∧
    (∀ (outs : List ArtifactM) (fs2 : FSState), (phase2 f outs fs2).1 = outs) := by
  have hstep : phase2Step f (acc, fs) a = (acc ++ [a], fs) ∧
      phase2Step g (acc, fs) a = (acc ++ [a], fs) := by
    rcases h with ⟨hjs, hemp⟩ | hnjs
    · unfold phase2Step
      rw [if_pos hjs, if_pos hemp, if_pos hjs, if_pos hemp]
      exact ⟨rfl, rfl⟩
    · unfold phase2Step
      rw [if_neg (by simp [hnjs]), if_neg (by simp [hnjs])]
      exact ⟨rfl, rfl⟩
  exact ⟨hstep.1, hstep.1.trans hstep.2.symm, fun outs fs2 => phase2_outputs f outs fs2⟩

/-- Witness for C9: a whitespace-only `.js` artifact is passed through with
no write and no obfuscator invocation. -/
theorem c9_empty_pass_through_witness :
    phase2Step (fun _ => "OBFUSCATED") ([], ⟨[], []⟩) ⟨"/dist/empty.js", " \n "⟩
      = ([⟨"/dist/empty.js", " \n "⟩], ⟨[], []⟩) :=
  (c9_empty_and_nonjs_pass_through ⟨"/dist/empty.js", " \n "⟩ [] ⟨[], []⟩
    (fun _ => "OBFUSCATED") (fun s => s) (Or.inl ⟨by decide, by decide⟩)).1

/-- C10: the `exclude` pattern takes precedence over the `include` filter —
for a loaded file matching both, the `onLoad` hook returns no result and
the file's contents are not obfuscated (the plugin's observable effect does
not depend on the transformation function); when `include` is omitted the
registration filter defaults to the regex for paths ending in `.js` or
`.mjs`. -/
theorem c10_exclude_precedence (inclF exF : String → Bool) (obf g : String → String)
    (path source : String) (hin : inclF path = true) (hex : exF path = true) :
    onLoadHook (some exF) obf path source = none ∧
    pluginProcess (some inclF) (some exF) obf path source = none ∧
    pluginProcess (some inclF) (some exF) obf path source
      = pluginProcess (some inclF) (some exF) g path source ∧
    (∀ p, pluginFilter none p = jsLike p) ∧
    (∀ p, jsLike p = true ↔ ∃ stem : String, p = stem ++ ".js" ∨ p = stem ++ ".mjs") := by
  have hhook : ∀ o : String → String, onLoadHook (some exF) o path source = none := by
    intro o
    unfold onLoadHook
    rw [if_pos hex]
  refine ⟨hhook obf, ?_, ?_, fun p => rfl, fun p => jsLike_iff⟩
  · unfold pluginProcess
    by_cases hf : pluginFilter (some inclF) path = true
    · rw [if_pos hf]
      exact hhook obf
    · rw [if_neg hf]
  · unfold pluginProcess
    by_cases hf : pluginFilter (some inclF) path = true
    · rw [if_pos hf, if_pos hf, hhook obf, hhook g]
    · rw [if_neg hf, if_neg hf]

/-- Witness for C10 at a concrete include/exclude pair. -/
theorem c10_exclude_precedence_witness :
    onLoadHook (some (fun p => isSufCs ".min.js".data p.data)) (fun _ => "OBF")
      "/dist/a.min.js" "code" = none :=
  (c10_exclude_precedence (fun p => isSufCs ".js".data p.data)
    (fun p => isSufCs ".min.js".data p.data) (fun _ => "OBF") (fun s => s)
    "/dist/a.min.js" "code" (by decide) (by decide)).1

theorem find?_filter_ne (l : List (String × String)) (p q : String) (hpq : p ≠ q) :
    (l.filter (fun e => e.1 ≠ q)).find? (fun e => e.1 = p)
      = l.find? (fun e => e.1 = p) := by
  induction l with
  | nil => rfl
  | cons e t ih =>
    by_cases heq : e.1 = q
    · have hfilter : (decide (e.1 ≠ q)) = false := by simp [heq]
      have hfind : (decide (e.1 = p)) = false := by
        simp only [decide_eq_false_iff_not, heq]
        exact fun h => hpq h.symm
      rw [List.filter_cons, hfilter]
      simp only [Bool.false_eq_true, if_false]
      rw [List.find?_cons, hfind]
      exact ih
    · have hfilter : (decide (e.1 ≠ q)) = true := by simp [heq]
      rw [List.filter_cons, hfilter]
      simp only [if_true]
      rw [List.find?_cons, List.find?_cons]
      cases hfind : (decide (e.1 = p)) with
      | true => rfl
      | false => exact ih

theorem lookupFile_write (fs : FSState) (q c p : String) :
    lookupFile (fsWrite fs q c) p = if p = q then some c else lookupFile fs p := by
  have hfind : ((q, c) :: fs.files.filter (fun e => e.1 ≠ q)).find? (fun e => e.1 = p)
      = if p = q then some (q, c) else fs.files.find? (fun e => e.1 = p) := by
    rw [List.find?_cons]
    by_cases hpq : p = q
    · subst hpq
      simp
    · have hhd : (decide (((q, c) : String × String).1 = p)) = false := by
        simp only [decide_eq_false_iff_not]
        exact fun he => hpq he.symm
      rw [hhd, if_neg hpq]
      exact find?_filter_ne fs.files p q hpq
  unfold lookupFile fsWrite
  rw [hfind]
  by_cases hpq : p = q
  · rw [if_pos hpq, if_pos hpq]
  · rw [if_neg hpq, if_neg hpq]

theorem lookupFile_unlink (fs : FSState) (q p : String) :
    lookupFile (fsUnlink fs q) p = if p = q then none else lookupFile fs p := by
  have hfind : (fs.files.filter (fun e => e.1 ≠ q)).find? (fun e => e.1 = p)
      = if p = q then none else fs.files.find? (fun e => e.1 = p) := by
    by_cases hpq : p = q
    · rw [if_pos hpq]
      subst hpq
      cases hf : (fs.files.filter (fun e => e.1 ≠ p)).find? (fun e => e.1 = p) with
      | none => rfl
      | some ent =>
        exfalso
        have hmem := List.mem_of_find?_eq_some hf
        have hp0 := List.find?_some hf
        have hp : ent.1 = p := of_decide_eq_true hp0
        have h2 := List.of_mem_filter hmem
        rw [hp] at h2
        simp at h2
    · rw [if_neg hpq]
      exact find?_filter_ne fs.files p q hpq
  unfold lookupFile fsUnlink
  rw [hfind]
  by_cases hpq : p = q
  · rw [if_pos hpq, if_pos hpq]
  · rw [if_neg hpq, if_neg hpq]

theorem rewriteOutputs_lookup (ext : List String) (bn : String) (q : String) :
    ∀ (outs : List ArtifactM) (fs : FSState), (∀ a ∈ outs, a.path ≠ q) →
      lookupFile (rewriteOutputs ext bn outs fs) q = lookupFile fs q := by
  intro outs
  induction outs with
  | nil => intro fs _; rfl
  | cons a t ih =>
    intro fs hne
    unfold rewriteOutputs
    rw [List.foldl_cons]
    have hstep : ∀ fs2 : FSState,
        lookupFile (rewriteOutputs ext bn t fs2) q = lookupFile fs2 q := by
      intro fs2
      exact ih fs2 (fun b hb => hne b (List.mem_cons_of_mem a hb))
    show lookupFile (List.foldl _ (if jsLike a.path = true then _ else fs) t) q = _
    by_cases hjs : jsLike a.path = true
    · rw [if_pos hjs]
      have h2 := hstep (fsWrite fs a.path (rewriteCode ext bn ((lookupFile fs a.path).getD "")))
      unfold rewriteOutputs at h2
      rw [h2, lookupFile_write]
      rw [if_neg (fun he => (hne a (List.mem_cons_self a t)) he.symm)]
    · rw [if_neg hjs]
      have h2 := hstep fs
      unfold rewriteOutputs at h2
      rw [h2]

/-- C6: when the vendor bundle build fails (unsuccessful result) or throws,
`obfuscatedBuild` still returns success with the first-party outputs, a
warning is logged, and the Import Rewriter is skipped: outside the removed
synthetic entry file, the final filesystem is exactly the post-obfuscation
filesystem. -/
theorem c6_vendor_failure_nonfatal (cfg : BuildCfg) (ie : String → Bool) (fs0 : FSState)
    (ub : BuildOutputM) (vb : Except String BuildOutputM) (obf : String → String)
    (ts : Nat) (e0 : String) (es : List String) (od : String)
    (he : cfg.entrypoints = e0 :: es) (ho : cfg.outdir = some od)
    (hu : ub.success = true) (hb : cfg.bundleNodeModules = true)
    (hx : externalArrayOf (mkOutdir fs0 od) ie cfg.cwd cfg.entrypoints ≠ [])
    (hv : (∃ e, vb = .error e) ∨ ∃ vo, vb = .ok vo ∧ vo.success = false) :
    ∃ run : BuildRun, obfuscatedBuildM cfg ie fs0 ub vb obf ts = .ok run ∧
      run.res.success = true ∧
      run.res.outputs = ub.outputs ∧
      run.warnings ≠ [] ∧
      (∀ p, p ≠ vendorEntryPathOf cfg e0 ts →
        lookupFile run.fs p
          = lookupFile (phase2 obf ub.outputs (mkOutdir fs0 od)).2 p) := by
  have hxb : (externalArrayOf (mkOutdir fs0 od) ie cfg.cwd cfg.entrypoints).isEmpty
      = false := by
    cases hc : (externalArrayOf (mkOutdir fs0 od) ie cfg.cwd cfg.entrypoints).isEmpty
    · rfl
    · exact absurd (List.isEmpty_iff.mp hc) hx
  unfold obfuscatedBuildM
  rw [he]
  simp only
  rw [ho]
  simp only
  rw [hu]
  simp only [Bool.not_true, Bool.false_eq_true, if_false]
  rw [he] at hxb
  rw [hb, hxb]
  simp only [Bool.not_false, Bool.and_true, if_true]
  rcases hv with ⟨e, rfl⟩ | ⟨vo, rfl, hvs⟩
  · refine ⟨_, rfl, rfl, phase2_outputs obf ub.outputs (mkOutdir fs0 od), by simp, ?_⟩
    intro p hp
    unfold vendorEntryPathOf at hp
    rw [lookupFile_unlink, if_neg hp, lookupFile_write, if_neg hp]
  · simp only
    rw [hvs]
    simp only [Bool.not_false, if_true]
    refine ⟨_, rfl, rfl, phase2_outputs obf ub.outputs (mkOutdir fs0 od), by simp, ?_⟩
    intro p hp
    unfold vendorEntryPathOf at hp
    rw [lookupFile_unlink, if_neg hp, lookupFile_write, if_neg hp]

/-- Witness for C6: a concrete run in which the vendor build throws still
returns success, keeps the single first-party artifact, and warns. -/
theorem c6_vendor_failure_witness :
    ∃ run : BuildRun,
      obfuscatedBuildM
        ⟨["/src/a.ts"], some "/dist", "/", true, "vendor.js"⟩ defaultIsExternal
        ⟨[("/src/a.ts", "import \"lodash\";")], ["/", "/src"]⟩
        ⟨true, [], [⟨"/dist/a.js", "code"⟩]⟩ (Except.error "boom") (fun s => s) 7
        = .ok run ∧
      run.res.success = true ∧
      run.res.outputs = [⟨"/dist/a.js", "code"⟩] ∧
      run.warnings ≠ [] ∧
      (∀ p, p ≠ vendorEntryPathOf ⟨["/src/a.ts"], some "/dist", "/", true, "vendor.js"⟩
          "/src/a.ts" 7 →
        lookupFile run.fs p
          = lookupFile (phase2 (fun s => s) [⟨"/dist/a.js", "code"⟩]
              (mkOutdir ⟨[("/src/a.ts", "import \"lodash\";")], ["/", "/src"]⟩ "/dist")).2 p) :=
  c6_vendor_failure_nonfatal
    ⟨["/src/a.ts"], some "/dist", "/", true, "vendor.js"⟩ defaultIsExternal
    ⟨[("/src/a.ts", "import \"lodash\";")], ["/", "/src"]⟩
    ⟨true, [], [⟨"/dist/a.js", "code"⟩]⟩ (Except.error "boom") (fun s => s) 7
    "/src/a.ts" [] "/dist" rfl rfl rfl rfl (by decide)
    (Or.inl ⟨"boom", rfl⟩)

/-- C7: on every execution path of the vendor bundling step — vendor build
success, reported failure, or a raised error — the synthetic vendor entry
file written next to the first entrypoint is absent from the filesystem
when `obfuscatedBuild` returns (provided no first-party artifact shares its
timestamped path). -/
theorem c7_vendor_entry_removed (cfg : BuildCfg) (ie : String → Bool) (fs0 : FSState)
    (ub : BuildOutputM) (vb : Except String BuildOutputM) (obf : String → String)
    (ts : Nat) (e0 : String) (es : List String) (od : String)
    (he : cfg.entrypoints = e0 :: es) (ho : cfg.outdir = some od)
    (hu : ub.success = true) (hb : cfg.bundleNodeModules = true)
    (hx : externalArrayOf (mkOutdir fs0 od) ie cfg.cwd cfg.entrypoints ≠ [])
    (hne : ∀ a ∈ ub.outputs, a.path ≠ vendorEntryPathOf cfg e0 ts) :
    ∀ run : BuildRun, obfuscatedBuildM cfg ie fs0 ub vb obf ts = .ok run →
      lookupFile run.fs (vendorEntryPathOf cfg e0 ts) = none := by
  have hxb : (externalArrayOf (mkOutdir fs0 od) ie cfg.cwd cfg.entrypoints).isEmpty
      = false := by
    cases hc : (externalArrayOf (mkOutdir fs0 od) ie cfg.cwd cfg.entrypoints).isEmpty
    · rfl
    · exact absurd (List.isEmpty_iff.mp hc) hx
  intro run hrun
  unfold vendorEntryPathOf
  unfold vendorEntryPathOf at hne
  unfold obfuscatedBuildM at hrun
  rw [he] at hrun
  simp only at hrun
  rw [ho] at hrun
  simp only at hrun
  rw [hu] at hrun
  simp only [Bool.not_true, Bool.false_eq_true, if_false] at hrun
  rw [he] at hxb
  rw [hb, hxb] at hrun
  simp only [Bool.not_false, Bool.and_true, if_true] at hrun
  cases vb with
  | error e =>
    simp only at hrun
    obtain rfl := Except.ok.inj hrun
    simp only
    rw [lookupFile_unlink, if_pos rfl]
  | ok vo =>
    simp only at hrun
    by_cases hvs : vo.success = true
    · rw [hvs] at hrun
      simp only [Bool.not_true, Bool.false_eq_true, if_false] at hrun
      obtain rfl := Except.ok.inj hrun
      simp only
      have houts := phase2_outputs obf ub.outputs (mkOutdir fs0 od)
      rw [rewriteOutputs_lookup _ _ _ _ _ (by rw [houts]; exact hne)]
      rw [lookupFile_unlink, if_pos rfl]
    · have hvs2 : vo.success = false := by
        cases hc : vo.success
        · rfl
        · exact absurd hc hvs
      rw [hvs2] at hrun
      simp only [Bool.not_false, if_true] at hrun
      obtain rfl := Except.ok.inj hrun
      simp only
      rw [lookupFile_unlink, if_pos rfl]

/-- Witness for C7: on a concrete successful vendor build, the timestamped
synthetic entry file is absent from the final filesystem. -/
theorem c7_vendor_entry_removed_witness :
    lookupFile
      ((obfuscatedBuildM
          ⟨["/src/a.ts"], some "/dist", "/", true, "vendor.js"⟩ defaultIsExternal
          ⟨[("/src/a.ts", "import \"lodash\";")], ["/", "/src"]⟩
          ⟨true, [], [⟨"/dist/a.js", "code"⟩]⟩
          (Except.ok ⟨true, [], [⟨"/dist/vendor.js", "vendor"⟩]⟩)
          (fun s => s) 7).toOption.getD
        ⟨⟨false, [], [], none⟩, ⟨[], []⟩, []⟩).fs
      (vendorEntryPathOf ⟨["/src/a.ts"], some "/dist", "/", true, "vendor.js"⟩
        "/src/a.ts" 7) = none :=
  c7_vendor_entry_removed
    ⟨["/src/a.ts"], some "/dist", "/", true, "vendor.js"⟩ defaultIsExternal
    ⟨[("/src/a.ts", "import \"lodash\";")], ["/", "/src"]⟩
    ⟨true, [], [⟨"/dist/a.js", "code"⟩]⟩
    (Except.ok ⟨true, [], [⟨"/dist/vendor.js", "vendor"⟩]⟩) (fun s => s) 7
    "/src/a.ts" [] "/dist" rfl rfl rfl rfl (by decide) (by decide) _ rfl

/-- C3 counterexample: `c3Content` is a single block comment — it starts
with `/*`, its one and only `*/` stands at the very end, and its body
mentions `lodash` exactly once (the file's only occurrence) — yet the
closure scan of this one-file tree returns `lodash` in the external set:
line-comment stripping runs first and consumes the `//`-prefixed closing
line together with the `*/` terminator, so block-comment stripping no
longer fires and the inner import is extracted. -/
theorem c3_comment_only_specifier_extracted :
    c3Content.data = "/*".data ++ c3Mid.data ++ "*/".data ∧
    hasSub c3Mid.data "lodash".data = true ∧
    countSub c3Content.data "*/".data = 1 ∧
    countSub c3Content.data "lodash".data = 1 ∧
    (collectExternalDependencies c3Fs defaultIsExternal "/" ["/a.js"]).map
        (fun st => st.exts) = some ["lodash"] := by
  refine ⟨by decide, by decide, by decide, by decide, by decide⟩

/-- C3 (amended): the extraction patterns run only on comment-stripped
text, so any specifier that does not occur in the stripped text of any
source file — in particular one whose every occurrence a clean line or
block comment removes — is absent from the external set; the
unconditional claim fails when a block comment's closing line carries `//`
before its `*/`. -/
theorem c3_stripped_absent (fs : FSState) (ie : String → Bool) (cwd : String)
    (entrypoints : List String) (s : String)
    (h : ∀ pc ∈ fs.files, hasSub (stripCommentsCs pc.2.data) s.data = false) :
    s ∉ externalArrayOf fs ie cwd entrypoints := by
  unfold externalArrayOf
  cases hc : collectExternalDependencies fs ie cwd entrypoints with
  | none => simp
  | some st =>
    have hinit : s ∉ (initScanSt cwd entrypoints).exts := by simp [initScanSt]
    have h2 : ∀ pc ∈ fs.files, s ∉ importsOfContent pc.2 := by
      intro pc hpc hmem
      have hh := importsOfContent_hasSub hmem
      rw [h pc hpc] at hh
      cases hh
    exact scanLoop_exts_not_mem h2 _ _ _ hc hinit

/-- Witness for the amended C3: a `lodash` reference living only on a `//`
line is stripped and stays out of the external set. -/
theorem c3_stripped_absent_witness :
    "lodash" ∉ externalArrayOf c3FsW defaultIsExternal "/" ["/w.js"] :=
  c3_stripped_absent c3FsW defaultIsExternal "/" ["/w.js"] "lodash" (by decide)

/-- C8 counterexample: in `c8Content`, the `require` target `aa` occurs at
index 9, before the static-import target `bb` at index 30, yet the
extractor returns `bb` before `aa`: the merged list concatenates the three
per-pattern match lists instead of preserving text order. -/
theorem c8_not_text_order :
    extractMatches c8Content.data = ["bb".data, "aa".data] ∧
    firstSubIdx c8Content.data "aa".data = some 9 ∧
    firstSubIdx c8Content.data "bb".data = some 30 := by
  refine ⟨by decide, by decide, by decide⟩

/-- C8 (amended): the Specifier Extractor produces one flat list that is
the concatenation of the three per-pattern match lists — static
static import/export first, then `require(...)`, then dynamic `import(...)` —
each per-pattern list in strictly increasing text order (its recorded match
end positions strictly increase), duplicates allowed (shown concretely);
text order is not preserved across the three patterns. -/
theorem c8_flat_merge_per_pattern_order :
    (∀ l : List Char,
      (importPosOf l).Pairwise (fun a b => a.1 < b.1) ∧
      (requirePosOf l).Pairwise (fun a b => a.1 < b.1) ∧
      (dynImportPosOf l).Pairwise (fun a b => a.1 < b.1) ∧
      extractMatches l
        = (importPosOf l).map Prod.snd ++ (requirePosOf l).map Prod.snd
          ++ (dynImportPosOf l).map Prod.snd) ∧
    extractMatches "import \"aa\";\nimport \"aa\";".data = ["aa".data, "aa".data] := by
  constructor
  · intro l
    have himp : ∀ l2 cap r, tryImportMatch l2 = some (cap, r) → r.length < l2.length :=
      fun l2 cap r h => (tryImportMatch_spec h).2.2
    have hreq : ∀ l2 cap r, tryCallMatch requireCs l2 = some (cap, r) →
        r.length < l2.length :=
      fun l2 cap r h => (tryCallMatch_spec (by simp [requireCs]) h).2.2
    have hdyn : ∀ l2 cap r, tryCallMatch importCs l2 = some (cap, r) →
        r.length < l2.length :=
      fun l2 cap r h => (tryCallMatch_spec (by simp [importCs]) h).2.2
    refine ⟨scanPos_sorted himp _ 0 l, scanPos_sorted hreq _ 0 l,
      scanPos_sorted hdyn _ 0 l, ?_⟩
    unfold extractMatches importPosOf requirePosOf dynImportPosOf
    rw [scanPos_snd, scanPos_snd, scanPos_snd]
  · decide
